import Mathlib

/-! # ry: text buffer, key dispatch, key notation, movement, scrolling and layout

A shallow embedding of the editing engine of the `ry` editor and the properties
its specification states about it.

Conventions of the embedding

* Go `int` values are integers (`Int`). Go's `int` is 64 bits wide on the platforms
  the editor runs on, and a sum or difference that leaves `[-2^63, 2^63 - 1]` wraps
  around: `int_wrap` is that wrap. It is applied in `PointMove`, `move`, the
  centering branch of `adjust_scroll` and `displayWindowTree`, which add to or
  subtract from an argument of any size. The other sums are over lengths of texts,
  line numbers, columns and screen rows, which stay far from the 64-bit range, and
  are exact.
* The conversion `float64(n)` of an `int` is the rounding of `n` to 53 significant
  bits (`float64`); it is `n` itself up to `2^53` in absolute value.
* Go strings are sequences of runes (`List Char`).
* A Go run-time panic (index out of range) is the result `Except.error
  Fault.indexOutOfRange`; loops without a syntactic bound take an iteration budget
  and report `Fault.outOfFuel` when it is exhausted.
* A Go map is the list of its entries in the order a `range` loop visits them.
* Actions bound to keys are Go closures; the embedding names them by a number and
  records which ones a dispatch step invokes, with the argument they receive.

Definitions come first, theorems second.
-/

/-- Failures of a run: a Go panic, or an exhausted iteration budget of the embedding. -/
inductive Fault where
  | indexOutOfRange
  | outOfFuel
  deriving DecidableEq

/-- Results of runs can be compared when failures and values can. -/
instance instDecidableEqExcept {ε α : Type} [DecidableEq ε] [DecidableEq α] :
    DecidableEq (Except ε α)
  | .ok a, .ok b =>
    if h : a = b then isTrue (congrArg Except.ok h)
    else isFalse (fun he => h (Except.ok.inj he))
  | .error a, .error b =>
    if h : a = b then isTrue (congrArg Except.error h)
    else isFalse (fun he => h (Except.error.inj he))
  | .ok _, .error _ => isFalse (fun he => Except.noConfusion he)
  | .error _, .ok _ => isFalse (fun he => Except.noConfusion he)

/-- Go `strings.Split(s, sep)` for a separator of one rune. -/
def strings_Split : List Char → Char → List (List Char)
  | [], _ => [[]]
  | c :: cs, sep =>
    if c = sep then [] :: strings_Split cs sep
    else
      match strings_Split cs sep with
      | [] => [[c]]
      | p :: ps => (c :: p) :: ps

/-- Go `strings.Join(parts, sep)`. -/
def strings_Join : List (List Char) → List Char → List Char
  | [], _ => []
  | [p], _ => p
  | p :: q :: rest, sep => p ++ sep ++ strings_Join (q :: rest) sep

/-- Go `strings.HasSuffix(s, suffix)`. -/
def strings_HasSuffix (s suffix : List Char) : Bool :=
  suffix.isSuffixOf s

/-- Go's `int` arithmetic on a 64-bit platform: the value a sum or difference of two
`int`s has after it wraps around into `[-2^63, 2^63 - 1]`. -/
def int_wrap (x : Int) : Int := (x + 2 ^ 63) % 2 ^ 64 - 2 ^ 63

/-- The number of low bits of the natural number `a` that do not fit into the 53
bit significand of a `float64`. The first argument bounds the recursion; an `int`
has at most 64 bits. -/
def float64.excess : Nat → Nat → Nat
  | 0, _ => 0
  | fuel + 1, a => if a < 2 ^ 53 then 0 else float64.excess fuel (a / 2) + 1

/-- Go `float64(n)` for an `int` `n`, given as the integer the result denotes: `n`
rounded to 53 significant bits, to the nearest such number and to the one with an
even significand when `n` lies half way between two. Every `n` of absolute value at
most `2^53` is its own result. -/
def float64 (n : Int) : Int :=
  let a := n.natAbs
  let e := float64.excess 64 a
  let q := a / 2 ^ e
  let r := a % 2 ^ e
  let q := if 2 * r > 2 ^ e ∨ (2 * r = 2 ^ e ∧ q % 2 = 1) then q + 1 else q
  n.sign * ((q * 2 ^ e : Nat) : Int)

/-- Go `int(math.Floor(float64(n) / 2))`. The division of a `float64` by two and
`math.Floor` are exact, and the result lies in `[-2^62, 2^62]`, so the conversion
back to `int` is exact too: the result is the integer floor of `float64(n) / 2`
(Lean's division of integers by a positive number rounds down). -/
def math_Floor_half (n : Int) : Int := float64 n / 2

/-- The identifier that stands for a bound Go closure. -/
abbrev CommandId := Nat

namespace Take2

/-! ## src/take2/buffer.go and src/modes.go -/

/-- Modelled from the spec: the rope type of the external package
`github.com/kiasaki/go-rope` is not among the sources. It is the TextStore of
spec section 3, an opaque character sequence with `insert(offset, text)`,
`delete(offset, count)`, `length()` and full materialization. -/
structure Rope where
  runes : List Char
  deriving DecidableEq

/-- Modelled from the spec: `rope.New(text)`. -/
def Rope.New (text : List Char) : Rope := ⟨text⟩

/-- Modelled from the spec: TextStore `length()`, in runes. -/
def Rope.Len (r : Rope) : Int := r.runes.length

/-- Modelled from the spec: TextStore `toString()`. -/
def Rope.String (r : Rope) : List Char := r.runes

/-- Modelled from the spec: TextStore `insert(offset, text)` writes `text` at the
0-based `offset`; the offset domain is `[0, length]` and an offset outside it is a
fatal contract violation. -/
def Rope.Insert (r : Rope) (idx : Int) (text : List Char) : Except Fault Rope :=
  if 0 ≤ idx ∧ idx ≤ r.Len then
    .ok ⟨r.runes.take idx.toNat ++ text ++ r.runes.drop idx.toNat⟩
  else .error .indexOutOfRange

/-- Modelled from the spec: TextStore `delete(offset, count)` removes `count` runes
starting at the 0-based `offset`, bounded at the end of the text (spec section 8);
an offset outside `[0, length]` or a negative count is a fatal contract violation. -/
def Rope.Delete (r : Rope) (idx : Int) (count : Int) : Except Fault Rope :=
  if 0 ≤ idx ∧ idx ≤ r.Len ∧ 0 ≤ count then
    .ok ⟨r.runes.take idx.toNat ++ r.runes.drop (idx.toNat + count.toNat)⟩
  else .error .indexOutOfRange

/-- Go `type Location int`. -/
abbrev Location := Int

/-- Go `NewLocation`. -/
def NewLocation (l : Int) : Location := l

/-- Go `ModeKind` with its three constants. -/
inductive ModeKind where
  | ModeEditing
  | ModeMajor
  | ModeMinor
  deriving DecidableEq

/-- Modelled from the spec: one key press, the KeyEvent of spec section 3
(modifiers, kind, rune); the declaration of the key stroke type used by
`src/modes.go` is not among the sources. -/
structure KeyStroke where
  mod : Nat
  key : Nat
  rune : Char
  deriving DecidableEq

/-- Modelled from the spec: the `Key` of `src/modes.go` holds a slice `keys` of key
strokes (`k.keys[len(k.keys)-1]` in the catch-all of `InsertMode`); it is the
KeySequence of spec section 3. -/
structure Key where
  keys : List KeyStroke
  deriving DecidableEq

/-- Modelled from the spec: `Key.Matches` is not among the sources; spec section 3
defines equality of key sequences as equal length and elementwise equality. -/
def Key.Matches (k1 k2 : Key) : Bool :=
  decide (k1.keys = k2.keys)

/-- A `*Key` used as a key of `Mode.Commands`: the package level pointer
`CatchAllKey` itself, or a pointer obtained from another `NewKey` call. The Go test
`cKey == CatchAllKey` compares pointers, so only the first kind passes it. -/
inductive KeyPtr where
  | CatchAllKey
  | alloc (k : Key)
  deriving DecidableEq

/-- The `Key` a pointer refers to; `CatchAllKey` is `NewKey("")`, the key sequence
with no key stroke. -/
def KeyPtr.deref : KeyPtr → Key
  | .CatchAllKey => ⟨[]⟩
  | .alloc k => k

/-- Go `Mode`; `Commands` lists the map entries in iteration order. -/
structure Mode where
  Name : String
  Kind : ModeKind
  Commands : List (KeyPtr × CommandId)
  deriving DecidableEq

/-- How the `range` loop of `Mode.HandleEvent` ends: through the `return true` after
calling `cFn`, or by running out of entries with the `catchAll` saved so far. -/
inductive HandleEventExit where
  | returned (cFn : CommandId)
  | finished (catchAll : Option CommandId)
  deriving DecidableEq

/-- The loop `for cKey, cFn := range m.Commands` of `Mode.HandleEvent`. -/
def Mode.HandleEvent.loop (key : Key) :
    List (KeyPtr × CommandId) → Option CommandId → HandleEventExit
  | [], catchAll => .finished catchAll
  | (cKey, cFn) :: rest, catchAll =>
    let catchAll := if cKey = KeyPtr.CatchAllKey then some cFn else catchAll
    if cKey.deref.Matches key then .returned cFn
    else Mode.HandleEvent.loop key rest catchAll

/-- Go `Mode.HandleEvent`: the actions invoked, in order and each with the key it
received, and the boolean result. The world and buffer arguments are only handed
on to the action. -/
def Mode.HandleEvent (m : Mode) (key : Key) : List (CommandId × Key) × Bool :=
  match Mode.HandleEvent.loop key m.Commands none with
  | .returned cFn => ([(cFn, key)], true)
  | .finished (some catchAll) => ([(catchAll, key)], true)
  | .finished none => ([], false)

/-- Go `Buffer`, with the fields the modelled operations read or write
(`Name`, `Path`, `LastSaveSum` and `Marks` are left out). `Point` is a `Location`,
that is an `int`. -/
structure Buffer where
  r : Rope
  Modified : Bool
  Point : Int
  Modes : List Mode
  Lines : List (List Char)
  LineCount : Int
  deriving DecidableEq

/-- Go `Buffer.String`. -/
def Buffer.String (b : Buffer) : List Char :=
  if b.r.Len = 0 then [] else b.r.String

/-- Go `Buffer.CacheLines`. -/
def Buffer.CacheLines (b : Buffer) : Buffer :=
  let lines := strings_Split b.String '\n'
  { b with Lines := lines, LineCount := lines.length }

/-- Go `NewBuffer` (`EnterNormalMode` has an empty body). -/
def NewBuffer (text : List Char) : Buffer :=
  let buffer : Buffer :=
    { r := Rope.New text, Modified := false, Point := NewLocation (-1), Modes := [],
      Lines := [], LineCount := 0 }
  buffer.CacheLines

/-- Go `Buffer.PointMove`. The sum `int(b.Point) + amount` is Go's: it wraps. -/
def Buffer.PointMove (b : Buffer) (amount : Int) : Buffer :=
  let newPoint := int_wrap (b.Point + amount)
  if newPoint < 0 then { b with Point := NewLocation (-1) }
  else if newPoint > b.r.Len - 1 then { b with Point := NewLocation (b.r.Len - 1) }
  else { b with Point := NewLocation newPoint }

/-- Go `Buffer.Insert`. -/
def Buffer.Insert (b : Buffer) (text : List Char) : Except Fault Buffer :=
  let b1 := { b with Modified := true }
  match b1.r.Insert (b1.Point + 1) text with
  | .error e => .error e
  | .ok r =>
    let b2 := { b1 with r := r }
    let b3 := b2.CacheLines
    .ok (b3.PointMove text.length)

/-- Go `Buffer.Delete`. -/
def Buffer.Delete (b : Buffer) (count : Int) : Except Fault Buffer :=
  if b.Point < b.r.Len - 1 then
    let b1 := { b with Modified := true }
    match b1.r.Delete (b1.Point + 1) count with
    | .error e => .error e
    | .ok r =>
      let b2 := { b1 with r := r }
      .ok b2.CacheLines
  else .ok b

/-- Go `Buffer.Backspace`. -/
def Buffer.Backspace (b : Buffer) : Except Fault Buffer :=
  if b.Point > -1 then
    match b.Delete 1 with
    | .error e => .error e
    | .ok b1 => .ok (b1.PointMove (-1))
  else .ok b

/-- Go `ReverseString`, a helper that is not among the sources: the runes of the
argument in reverse order. -/
def ReverseString (s : List Char) : List Char := s.reverse

/-- The `for pos := int(b.Point); pos > 0; pos--` loop of `FindFirstInBackward`;
`pos` is the loop variable and `contentsToSearchIn` the text accumulated so far. -/
def Buffer.FindFirstInBackward.loop (b : Buffer) (contents search : List Char) :
    Nat → List Char → Except Fault Buffer
  | 0, _ => .ok b
  | pos + 1, contentsToSearchIn =>
    match contents[pos + 1]? with
    | none => .error .indexOutOfRange
    | some c =>
      let contentsToSearchIn := contentsToSearchIn ++ [c]
      if strings_HasSuffix contentsToSearchIn search then
        .ok { b with Point := NewLocation ((pos + 1 : Nat) : Int) }
      else Buffer.FindFirstInBackward.loop b contents search pos contentsToSearchIn

/-- Go `Buffer.FindFirstInBackward`. A `Point` that is not positive runs the loop
zero times. -/
def Buffer.FindFirstInBackward (b : Buffer) (search : List Char) : Except Fault Buffer :=
  let contents := b.String
  let search := ReverseString search
  Buffer.FindFirstInBackward.loop b contents search b.Point.toNat []

/-- The loop `for _, mode := range currentModes` of `Buffer.ModeAdd`; the second
argument is `b.Modes` as built so far. -/
def Buffer.ModeAdd.loop (m : Mode) : List Mode → List Mode → List Mode
  | [], modes => modes
  | mode :: rest, modes =>
    if m.Kind = ModeKind.ModeEditing ∧ mode.Kind = ModeKind.ModeEditing then
      Buffer.ModeAdd.loop m rest modes
    else if m.Kind = ModeKind.ModeMajor ∧ mode.Kind = ModeKind.ModeMajor then
      Buffer.ModeAdd.loop m rest modes
    else Buffer.ModeAdd.loop m rest (modes ++ [mode])

/-- Go `Buffer.ModeAdd`. -/
def Buffer.ModeAdd (b : Buffer) (m : Mode) : Buffer :=
  let currentModes := b.Modes
  let b := { b with Modes := [] }
  let b := { b with Modes := Buffer.ModeAdd.loop m currentModes b.Modes }
  { b with Modes := b.Modes ++ [m] }

/-- The line index is in step with the text: `Lines` is the text split on line
feeds and `LineCount` is the number of lines. -/
def Buffer.LinesInStep (b : Buffer) : Prop :=
  b.Lines = strings_Split b.String '\n' ∧ b.LineCount = (b.Lines.length : Int)

instance (b : Buffer) : Decidable b.LinesInStep := by
  unfold Buffer.LinesInStep; infer_instance

/-! ## src/take2/display.go: the window tree -/

/-- A rectangle handed to `displayWindow`: `x`, `y`, `width`, `height`. -/
structure Rect where
  x : Int
  y : Int
  width : Int
  height : Int
  deriving DecidableEq

/-- Modelled from the spec: the declaration of `Window` is not among the sources.
It is the WindowNode of spec section 3, a leaf (`Kind == WindowNode`, here with a
number that identifies the window) or a split of kind `WindowHorizontalSplit` or
`WindowVerticalSplit` with the children `Left` and `Right`. -/
inductive Window where
  | WindowNode (id : Nat)
  | WindowHorizontalSplit (Left Right : Window)
  | WindowVerticalSplit (Left Right : Window)
  deriving DecidableEq

/-- Go `Display.displayWindowTree`: the calls of `displayWindow` it makes, in order,
each with the window and the rectangle it is given. The sums and differences are
Go's: they wrap. -/
def displayWindowTree : Window → Int → Int → Int → Int → List (Nat × Rect)
  | .WindowNode id, x, y, width, height => [(id, ⟨x, y, width, height⟩)]
  | .WindowHorizontalSplit Left Right, x, y, width, height =>
    let halfWidth := math_Floor_half width
    displayWindowTree Left x y halfWidth height
      ++ displayWindowTree Right (int_wrap (x + halfWidth)) y
          (int_wrap (width - halfWidth)) height
  | .WindowVerticalSplit Left Right, x, y, width, height =>
    let halfHeight := math_Floor_half width
    displayWindowTree Left x y width halfHeight
      ++ displayWindowTree Right x (int_wrap (y + halfHeight)) width
          (int_wrap (height - halfHeight))

/-- The invariant of spec section 3: `-1 <= point <= length-1`. -/
def Buffer.PointInRange (b : Buffer) : Prop :=
  -1 ≤ b.Point ∧ b.Point ≤ b.r.Len - 1

instance (b : Buffer) : Decidable b.PointInRange := by
  unfold Buffer.PointInRange; infer_instance

end Take2

namespace R

/-! ## src/r/r.go: keys, key lists and the dispatch step -/

/-- Constants of the external package tcell: the modifier mask bits. -/
def ModNone : Nat := 0

/-- Constant `tcell.ModShift`. -/
def ModShift : Nat := 1

/-- Constant `tcell.ModCtrl`. -/
def ModCtrl : Nat := 2

/-- Constant `tcell.ModAlt`. -/
def ModAlt : Nat := 4

/-- Constant `tcell.ModMeta`. -/
def ModMeta : Nat := 8

/-- Constant `tcell.KeyRune`. -/
def KeyRune : Nat := 256

/-- Constant `tcell.KeyDelete`. -/
def KeyDelete : Nat := 271

/-- Constant `tcell.KeyBackspace`. -/
def KeyBackspace : Nat := 8

/-- Constant `tcell.KeyBackspace2`. -/
def KeyBackspace2 : Nat := 127

/-- Constant `tcell.KeyEnter`. -/
def KeyEnter : Nat := 13

/-- Constant `tcell.KeyEscape`. -/
def KeyEscape : Nat := 27

/-- Constant `tcell.KeyTab`. -/
def KeyTab : Nat := 9

/-- Go `tcell.Key(' ')`. -/
def KeySpace : Nat := 32

/-- Go `key`: modifier mask, key code, rune. -/
structure key where
  mod : Nat
  key : Nat
  chr : Char
  deriving DecidableEq

/-- Go `key_list`. -/
structure key_list where
  keys : List key
  deriving DecidableEq

/-- The loop of `new_key` over `parts[:len(parts)-1]`. -/
def new_key.modifiers : List (List Char) → Nat → Nat
  | [], mod_mask => mod_mask
  | part :: rest, mod_mask =>
    let mod_mask :=
      if part = ['C'] then mod_mask ||| ModCtrl
      else if part = ['S'] then mod_mask ||| ModShift
      else if part = ['A'] then mod_mask ||| ModAlt
      else if part = ['M'] then mod_mask ||| ModMeta
      else mod_mask
    new_key.modifiers rest mod_mask

/-- Go `new_key`. `[]rune(last_part)[0]` panics on an empty last part. -/
def new_key (rep : List Char) : Except Fault key :=
  let parts := strings_Split rep '-'
  let mod_mask := new_key.modifiers parts.dropLast ModNone
  match parts.getLast? with
  | none => .error .indexOutOfRange
  | some last_part =>
    if last_part = ['D', 'E', 'L'] then .ok ⟨mod_mask, KeyDelete, Char.ofNat 0⟩
    else if last_part = ['B', 'A', 'K'] then .ok ⟨mod_mask, KeyBackspace2, Char.ofNat 0⟩
    else if last_part = ['R', 'E', 'T'] then .ok ⟨mod_mask, KeyEnter, Char.ofNat 0⟩
    else if last_part = ['S', 'P', 'C'] then .ok ⟨mod_mask, KeySpace, Char.ofNat 0⟩
    else if last_part = ['E', 'S', 'C'] then .ok ⟨mod_mask, KeyEscape, Char.ofNat 0⟩
    else if last_part = ['T', 'A', 'B'] then .ok ⟨mod_mask, KeyTab, Char.ofNat 0⟩
    else
      match last_part with
      | [] => .error .indexOutOfRange
      | r :: _ => .ok ⟨mod_mask, KeyRune, r⟩

/-- Go `key.String`. -/
def key.String (k : R.key) : List Char :=
  let mods : List (List Char) := []
  let mods := if k.mod &&& ModCtrl ≠ 0 then mods ++ [['C']] else mods
  let mods := if k.mod &&& ModShift ≠ 0 then mods ++ [['S']] else mods
  let mods := if k.mod &&& ModAlt ≠ 0 then mods ++ [['A']] else mods
  let mods := if k.mod &&& ModMeta ≠ 0 then mods ++ [['M']] else mods
  let name : List Char := [k.chr]
  let name :=
    if k.key = KeyDelete then ['D', 'E', 'L']
    else if k.key = KeyBackspace2 then ['B', 'A', 'K']
    else if k.key = KeyEnter then ['R', 'E', 'T']
    else if k.key = KeySpace then ['S', 'P', 'C']
    else if k.key = KeyEscape then ['E', 'S', 'C']
    else if k.key = KeyTab then ['T', 'A', 'B']
    else name
  strings_Join (mods ++ [name]) ['-']

/-- Go `key.matches`. -/
def key.matches (k1 k2 : R.key) : Bool :=
  k1.mod == k2.mod && k1.key == k2.key && k1.chr == k2.chr

/-- The loop of `new_key_list` over the parts of the representation. -/
def new_key_list.loop : List (List Char) → key_list → Except Fault key_list
  | [], kl => .ok kl
  | part :: rest, kl =>
    if part ≠ [] then
      match new_key part with
      | .error e => .error e
      | .ok k => new_key_list.loop rest ⟨kl.keys ++ [k]⟩
    else new_key_list.loop rest kl

/-- Go `new_key_list`, also named `k`. -/
def new_key_list (rep : List Char) : Except Fault key_list :=
  let kl : key_list := ⟨[]⟩
  let parts := strings_Split rep ' '
  new_key_list.loop parts kl

/-- Go `key_list.String`. -/
def key_list.String (kl : key_list) : List Char :=
  strings_Join (kl.keys.map key.String) [' ']

/-- Go `key_list.add_key`. -/
def key_list.add_key (kl : key_list) (k : key) : key_list :=
  ⟨kl.keys ++ [k]⟩

/-- The loop `for i := range kl1.keys` of `key_list.matches`, entered only with lists
of equal length; the second clause is not reached then. -/
def key_list.matches.loop : List key → List key → Bool
  | [], _ => true
  | _ :: _, [] => false
  | k1 :: rest1, k2 :: rest2 =>
    if !k1.matches k2 then false else key_list.matches.loop rest1 rest2

/-- Go `key_list.matches`. -/
def key_list.matches (kl1 kl2 : key_list) : Bool :=
  if kl1.keys.length ≠ kl2.keys.length then false
  else key_list.matches.loop kl1.keys kl2.keys

/-- The loop `for i := len(kl1.keys) - 1; i >= 0; i--` of `has_suffix`; the argument
`i + 1` stands for the loop variable `i`. -/
def key_list.has_suffix.loop (kl1 kl2 : key_list) : Nat → Option key_list
  | 0 => none
  | i + 1 =>
    let tmp_kl : key_list := ⟨kl1.keys.drop i⟩
    if tmp_kl.matches kl2 then some tmp_kl
    else key_list.has_suffix.loop kl1 kl2 i

/-- Go `key_list.has_suffix`; the nil result is `none`. -/
def key_list.has_suffix (kl1 kl2 : key_list) : Option key_list :=
  key_list.has_suffix.loop kl1 kl2 kl1.keys.length

/-- Go `mode`; `bindings` lists the map entries in iteration order. -/
structure mode where
  name : String
  bindings : List (key_list × CommandId)
  deriving DecidableEq

/-- The global `keys_entered` together with the record of the actions invoked so
far in the current dispatch step, each with the key list it received. -/
structure dispatch_state where
  keys_entered : key_list
  invoked : List (CommandId × key_list)
  deriving DecidableEq

/-- The loop `for kl, f := range mode.bindings` of `main`. The loop has no `break`:
after a match it goes on with `keys_entered` reset to `k("")`, the empty key list.
No action of the program writes `keys_entered`. -/
def dispatch.loop : List (key_list × CommandId) → dispatch_state → dispatch_state
  | [], s => s
  | (kl, f) :: rest, s =>
    match s.keys_entered.has_suffix kl with
    | some matched =>
      dispatch.loop rest { keys_entered := ⟨[]⟩, invoked := s.invoked ++ [(f, matched)] }
    | none => dispatch.loop rest s

/-- The key branch of the event loop of `main` for one incoming key (the result of
`new_key_from_event`): append it to `keys_entered`, then visit the bindings. -/
def dispatch (m : mode) (keys_entered : key_list) (ev : key) : dispatch_state :=
  let keys_entered := keys_entered.add_key ev
  dispatch.loop m.bindings { keys_entered := keys_entered, invoked := [] }

/-! ## The key notation grammar of spec section 4.3, as claim C9 words it -/

/-- The key token that ends a chord: one of the six named symbols or a single
literal character. -/
inductive key_token where
  | DEL
  | BAK
  | RET
  | SPC
  | ESC
  | TAB
  | literal (c : Char)
  deriving DecidableEq

/-- The written form of a key token. -/
def key_token.text : key_token → List Char
  | .DEL => ['D', 'E', 'L']
  | .BAK => ['B', 'A', 'K']
  | .RET => ['R', 'E', 'T']
  | .SPC => ['S', 'P', 'C']
  | .ESC => ['E', 'S', 'C']
  | .TAB => ['T', 'A', 'B']
  | .literal c => [c]

/-- A literal key token is a character other than `-` and space. -/
def key_token.wellFormed : key_token → Prop
  | .literal c => c ≠ '-' ∧ c ≠ ' '
  | _ => True

instance (t : key_token) : Decidable t.wellFormed := by
  cases t <;> unfold key_token.wellFormed <;> infer_instance

/-- The key code and rune that stand for a key token. -/
def key_token.code : key_token → Nat × Char
  | .DEL => (KeyDelete, Char.ofNat 0)
  | .BAK => (KeyBackspace2, Char.ofNat 0)
  | .RET => (KeyEnter, Char.ofNat 0)
  | .SPC => (KeySpace, Char.ofNat 0)
  | .ESC => (KeyEscape, Char.ofNat 0)
  | .TAB => (KeyTab, Char.ofNat 0)
  | .literal c => (KeyRune, c)

/-- A chord of the grammar: which of the modifier tokens `C`, `S`, `A`, `M` it
carries, and its key token. -/
structure chord where
  C : Bool
  S : Bool
  A : Bool
  M : Bool
  token : key_token
  deriving DecidableEq

/-- The modifier tokens of a chord, in the order `C`, `S`, `A`, `M`. -/
def chord.modifiers (c : chord) : List (List Char) :=
  (if c.C then [['C']] else []) ++ (if c.S then [['S']] else [])
    ++ (if c.A then [['A']] else []) ++ (if c.M then [['M']] else [])

/-- The written form of a chord: its modifier tokens and its key token joined by
`-`. -/
def chord.text (c : chord) : List Char :=
  strings_Join (c.modifiers ++ [c.token.text]) ['-']

/-- The modifier mask that stands for the modifier tokens of a chord. -/
def chord.mask (c : chord) : Nat :=
  (if c.C then ModCtrl else 0) ||| (if c.S then ModShift else 0)
    ||| (if c.A then ModAlt else 0) ||| (if c.M then ModMeta else 0)

/-- The key a chord stands for. -/
def chord.key (c : chord) : R.key :=
  { mod := c.mask, key := c.token.code.1, chr := c.token.code.2 }

/-- The written form of a sequence of chords: the chords separated by single
spaces. -/
def chord.sequence_text (cs : List chord) : List Char :=
  strings_Join (cs.map chord.text) [' ']

/-! ## src/r/r.go: the line-grid buffer and word movement -/

/-- Go slice indexing `s[i]`, a panic outside `[0, len(s))`. -/
def index {α : Type} (s : List α) (i : Int) : Except Fault α :=
  if i < 0 then .error .indexOutOfRange
  else
    match s[i.toNat]? with
    | some a => .ok a
    | none => .error .indexOutOfRange

/-- Go `location`. -/
structure location where
  line : Int
  char : Int
  deriving DecidableEq

/-- Go `buffer`, with the fields the movement functions use. -/
structure buffer where
  data : List (List Char)
  cursor : location
  deriving DecidableEq

/-- The predicates `unicode.IsLetter` and `unicode.IsNumber` of the Go standard
library, whose tables are not part of the program. -/
structure unicode where
  IsLetter : Char → Bool
  IsNumber : Char → Bool

/-- The two predicates on the ASCII range, where letters are `A-Z` and `a-z` and
numbers are `0-9`. -/
def unicode.ascii : unicode :=
  { IsLetter := Char.isAlpha, IsNumber := Char.isDigit }

/-- Go `is_word`. -/
def is_word (u : unicode) (r : Char) : Bool :=
  u.IsLetter r || u.IsNumber r || ['_'].contains r

/-- Go `buffer.char_under_cursor`. -/
def buffer.char_under_cursor (b : buffer) : Except Fault Char :=
  match index b.data b.cursor.line with
  | .error e => .error e
  | .ok line =>
    if b.cursor.char < line.length then index line b.cursor.char
    else .ok '\n'

/-- Go `buffer.first_line`. -/
def buffer.first_line (b : buffer) : Bool :=
  b.cursor.line == 0

/-- Go `buffer.last_line`. -/
def buffer.last_line (b : buffer) : Bool :=
  b.cursor.line == (b.data.length : Int) - 1

/-- The loop `for is_word(c) && c != '\n'` of `move_word_forward`. -/
def buffer.move_word_forward.skip_word (u : unicode) :
    Nat → buffer → Char → Except Fault (buffer × Char)
  | 0, _, _ => .error .outOfFuel
  | fuel + 1, b, c =>
    if is_word u c && c != '\n' then
      let b := { b with cursor := { b.cursor with char := b.cursor.char + 1 } }
      match b.char_under_cursor with
      | .error e => .error e
      | .ok c => buffer.move_word_forward.skip_word u fuel b c
    else .ok (b, c)

/-- The loop `for !is_word(c) && c != '\n'` of `move_word_forward`. -/
def buffer.move_word_forward.skip_other (u : unicode) :
    Nat → buffer → Char → Except Fault (buffer × Char)
  | 0, _, _ => .error .outOfFuel
  | fuel + 1, b, c =>
    if !is_word u c && c != '\n' then
      let b := { b with cursor := { b.cursor with char := b.cursor.char + 1 } }
      match b.char_under_cursor with
      | .error e => .error e
      | .ok c => buffer.move_word_forward.skip_other u fuel b c
    else .ok (b, c)

/-- The outer `for` loop of `move_word_forward`. The boolean of the result is
`false` when the loop left the function through `return false` and `true` when it
ended with `break`. Every loop gets the budget `fuel`. -/
def buffer.move_word_forward.outer (u : unicode) (fuel : Nat) :
    Nat → buffer → Except Fault (buffer × Bool)
  | 0, _ => .error .outOfFuel
  | n + 1, b =>
    match b.char_under_cursor with
    | .error e => .error e
    | .ok c =>
      if c == '\n' then
        if b.last_line then .ok (b, false)
        else .ok ({ b with cursor := { line := b.cursor.line + 1, char := 0 } }, true)
      else
        match buffer.move_word_forward.skip_word u fuel b c with
        | .error e => .error e
        | .ok (b, c) =>
          if c == '\n' then buffer.move_word_forward.outer u fuel n b
          else .ok (b, true)

/-- Go `buffer.move_word_forward`: the buffer afterwards and the boolean result. -/
def buffer.move_word_forward (u : unicode) (fuel : Nat) (b : buffer) :
    Except Fault (buffer × Bool) :=
  match buffer.move_word_forward.outer u fuel fuel b with
  | .error e => .error e
  | .ok (b, false) => .ok (b, false)
  | .ok (b, true) =>
    match b.char_under_cursor with
    | .error e => .error e
    | .ok c =>
      match buffer.move_word_forward.skip_other u fuel b c with
      | .error e => .error e
      | .ok (b, _) => .ok (b, true)

/-- The loop `for !is_word(c) && b.cursor.char != 0` of `move_word_backward`. -/
def buffer.move_word_backward.skip_other (u : unicode) :
    Nat → buffer → Char → Except Fault (buffer × Char)
  | 0, _, _ => .error .outOfFuel
  | fuel + 1, b, c =>
    if !is_word u c && b.cursor.char != 0 then
      let b := { b with cursor := { b.cursor with char := b.cursor.char - 1 } }
      match b.char_under_cursor with
      | .error e => .error e
      | .ok c => buffer.move_word_backward.skip_other u fuel b c
    else .ok (b, c)

/-- The loop `for is_word(c) && b.cursor.char != 0` of `move_word_backward`. -/
def buffer.move_word_backward.skip_word (u : unicode) :
    Nat → buffer → Char → Except Fault (buffer × Char)
  | 0, _, _ => .error .outOfFuel
  | fuel + 1, b, c =>
    if is_word u c && b.cursor.char != 0 then
      let b := { b with cursor := { b.cursor with char := b.cursor.char - 1 } }
      match b.char_under_cursor with
      | .error e => .error e
      | .ok c => buffer.move_word_backward.skip_word u fuel b c
    else .ok (b, c)

/-- The outer `for` loop of `move_word_backward`; the boolean is `false` for
`return false` and `true` for `break`. Every loop gets the budget `fuel`. -/
def buffer.move_word_backward.outer (u : unicode) (fuel : Nat) :
    Nat → buffer → Except Fault (buffer × Bool)
  | 0, _ => .error .outOfFuel
  | n + 1, b =>
    match b.char_under_cursor with
    | .error e => .error e
    | .ok c =>
      if b.cursor.char == 0 then
        if b.first_line then .ok (b, false)
        else
          let line := b.cursor.line - 1
          match index b.data line with
          | .error e => .error e
          | .ok l =>
            buffer.move_word_backward.outer u fuel n
              { b with cursor := { line := line, char := l.length } }
      else
        match buffer.move_word_backward.skip_other u fuel b c with
        | .error e => .error e
        | .ok (b, _) =>
          if b.cursor.char == 0 then buffer.move_word_backward.outer u fuel n b
          else .ok (b, true)

/-- Go `buffer.move_word_backward`: the buffer afterwards and the boolean result. -/
def buffer.move_word_backward (u : unicode) (fuel : Nat) (b : buffer) :
    Except Fault (buffer × Bool) :=
  match buffer.move_word_backward.outer u fuel fuel b with
  | .error e => .error e
  | .ok (b, false) => .ok (b, false)
  | .ok (b, true) =>
    match b.char_under_cursor with
    | .error e => .error e
    | .ok c =>
      match buffer.move_word_backward.skip_word u fuel b c with
      | .error e => .error e
      | .ok (b, _) => .ok (b, true)

/-- Go `min` of `src/r/r.go`. -/
protected def min (a b : Int) : Int :=
  if a < b then a else b

/-- Go `max` of `src/r/r.go`. -/
protected def max (a b : Int) : Int :=
  if a > b then a else b

/-- Go `buffer.move_to`. -/
def buffer.move_to (b : buffer) (c l : Int) : Except Fault buffer :=
  let b := { b with cursor := { b.cursor with
    line := R.max (R.min l ((b.data.length : Int) - 1)) 0 } }
  match index b.data b.cursor.line with
  | .error e => .error e
  | .ok line =>
    .ok { b with cursor := { b.cursor with char := R.max (R.min c line.length) 0 } }

/-- Go `buffer.move`. The sums `b.cursor.char+c` and `b.cursor.line+l` are Go's:
they wrap. -/
def buffer.move (b : buffer) (c l : Int) : Except Fault buffer :=
  b.move_to (int_wrap (b.cursor.char + c)) (int_wrap (b.cursor.line + l))

/-! ## src/r/r.go: views and scrolling -/

/-- Go `view`, with the fields `adjust_scroll` uses (`highlights` and `marks` are
left out). -/
structure view where
  buf : buffer
  line_offset : Int
  center_pending : Bool
  deriving DecidableEq

/-- Go `view.adjust_scroll`. In the centering branch `h-1` and the difference
`l-int(...)` are Go's: they wrap. -/
def view.adjust_scroll (v : view) (_w h : Int) : view :=
  let l := v.buf.cursor.line
  if v.center_pending then
    let v := { v with
      line_offset := R.max (int_wrap (l - math_Floor_half (int_wrap (h - 1)))) 1 }
    { v with center_pending := false }
  else
    let v := if l > h - 1 + v.line_offset then
      { v with line_offset := R.max (l - h - 1 + 2) 0 } else v
    let v := if l < v.line_offset then { v with line_offset := l } else v
    v

/-! ## src/r/r.go: keys from terminal events -/

/-- What `new_key_from_event` reads from a `*tcell.EventKey`: the results of its
methods `Key()`, `Rune()`, `Modifiers()` and `Name()`. -/
structure EventKey where
  Key : Nat
  Rune : Char
  Modifiers : Nat
  Name : List Char
  deriving DecidableEq

/-- The part of `new_key_from_event` after the comment `Handle Ctrl-h`, with the
current values of `k`, `r` and `m`. The updated mask `m` is not used afterwards:
the key is built from `ev.Modifiers()`. -/
def new_key_from_event.handle_ctrl_h (ev : EventKey) (k : Nat) (r : Char) (m : Nat) : key :=
  let (_, k, r) :=
    if k = KeyBackspace then (m ||| ModCtrl, KeyRune, 'h') else (m, k, r)
  { mod := ev.Modifiers, key := k, chr := r }

/-- Go `new_key_from_event`. `ToLower` is `unicode.ToLower`; the name of an event is
ASCII text, and `key_name[5:6]` panics when the name has no sixth byte. -/
def new_key_from_event (ToLower : Char → Char) (ev : EventKey) : Except Fault key :=
  let k := ev.Key
  let r := ev.Rune
  let m := ev.Modifiers
  let key_name := ev.Name
  if ['C', 't', 'r', 'l', '+'].isPrefixOf key_name then
    match key_name.drop 5 with
    | [] => .error .indexOutOfRange
    | c :: _ => .ok (new_key_from_event.handle_ctrl_h ev KeyRune (ToLower c) m)
  else .ok (new_key_from_event.handle_ctrl_h ev k r m)

/-! ## src/r/r.go: the rows of a view -/

/-- The loop `for line < len(b.data) && sy < y+h-1` of `render_view`: the buffer
lines it draws, each with the screen row it is drawn on. Every iteration advances
`line` towards `len(b.data)`; the first argument bounds the iterations. -/
def render_view.rows (b : buffer) (y h : Int) : Nat → Int → Int → List (Int × Int)
  | 0, _, _ => []
  | fuel + 1, line, sy =>
    if line < (b.data.length : Int) ∧ sy < y + h - 1 then
      (line, sy) :: render_view.rows b y h fuel (line + 1) (sy + 1)
    else []

/-- Go `render_view`, as far as scrolling and the choice of rows go: the view after
`adjust_scroll` and the lines drawn with their rows (the status bar is written on
row `y+h-1`). Writing the cells is the screen's business. -/
def render_view (v : view) (_x y w h : Int) : view × List (Int × Int) :=
  let v := v.adjust_scroll w h
  (v, render_view.rows v.buf y h v.buf.data.length v.line_offset y)

/-! ## src/r/r.go: the built-in mode table -/

/-- Go `var k = new_key_list`. -/
def k (rep : List Char) : Except Fault key_list := new_key_list rep

/-- The action `move_left` of the normal mode; the thirteen actions are named by the
numbers 0 to 12 in the order of the table. -/
def move_left : CommandId := 0

/-- The action `move_down`. -/
def move_down : CommandId := 1

/-- The action `move_up`. -/
def move_up : CommandId := 2

/-- The action `move_right`. -/
def move_right : CommandId := 3

/-- The action `move_line_beg`. -/
def move_line_beg : CommandId := 4

/-- The action `move_line_end`. -/
def move_line_end : CommandId := 5

/-- The action `move_top`. -/
def move_top : CommandId := 6

/-- The action `move_bottom`. -/
def move_bottom : CommandId := 7

/-- The action `move_jump_up`. -/
def move_jump_up : CommandId := 8

/-- The action `move_jump_down`. -/
def move_jump_down : CommandId := 9

/-- The action `move_center_line`. -/
def move_center_line : CommandId := 10

/-- The action `move_word_forward` (the command, which calls the buffer method). -/
def move_word_forward : CommandId := 11

/-- The action `move_word_backward` (the command, which calls the buffer method). -/
def move_word_backward : CommandId := 12

/-- Evaluation of a map literal `map[*key_list]command_fn{k(..): f, ...}`: every key
is parsed with `k`; the entries are listed in the order of the source. -/
def mode.bind_all : List (List Char × CommandId) → Except Fault (List (key_list × CommandId))
  | [] => .ok []
  | (rep, f) :: rest =>
    match k rep with
    | .error e => .error e
    | .ok kl =>
      match mode.bind_all rest with
      | .error e => .error e
      | .ok bindings => .ok ((kl, f) :: bindings)

/-- Go `modes["normal"]`. -/
def modes.normal : Except Fault mode :=
  match mode.bind_all
      [("h".toList, move_left), ("j".toList, move_down), ("k".toList, move_up),
       ("l".toList, move_right), ("0".toList, move_line_beg), ("$".toList, move_line_end),
       ("g g".toList, move_top), ("G".toList, move_bottom), ("C-u".toList, move_jump_up),
       ("C-d".toList, move_jump_down), ("z z".toList, move_center_line),
       ("w".toList, move_word_forward), ("b".toList, move_word_backward)] with
  | .error e => .error e
  | .ok bindings => .ok { name := "normal", bindings := bindings }

/-- The bindings of `modes["normal"]` once the table is built. -/
def modes.normal_bindings : List (key_list × CommandId) :=
  match modes.normal with
  | .ok m => m.bindings
  | .error _ => []

/-! ## src/search.go: stepping through the matches -/

/-- The globals `search_next` and `search_prev` read and write: `last_search_index`,
`last_search_highlight`, `last_search_results`, and `editor_message`, which
`message` sets. -/
structure search_state where
  last_search_index : Int
  last_search_highlight : Bool
  last_search_results : List location
  editor_message : List Char
  deriving DecidableEq

/-- Go `search_prev`. `highlight_buffer` is not among the sources; it recolours the
view and touches neither the search state nor the cursor. -/
def search_prev (s : search_state) (b : buffer) : Except Fault (search_state × buffer) :=
  if s.last_search_results.length = 0 then
    .ok ({ s with editor_message := "No search result.".toList }, b)
  else
    let s :=
      if s.last_search_index = 0 then
        { s with last_search_index := (s.last_search_results.length : Int) - 1 }
      else { s with last_search_index := s.last_search_index - 1 }
    let s := { s with last_search_highlight := true }
    match index s.last_search_results s.last_search_index with
    | .error e => .error e
    | .ok loc =>
      match b.move_to loc.char loc.line with
      | .error e => .error e
      | .ok b => .ok (s, b)

/-- Go `search_next`. -/
def search_next (s : search_state) (b : buffer) : Except Fault (search_state × buffer) :=
  if s.last_search_results.length = 0 then
    .ok ({ s with editor_message := "No search result.".toList }, b)
  else
    let s :=
      if s.last_search_index + 1 = (s.last_search_results.length : Int) then
        { s with last_search_index := 0 }
      else { s with last_search_index := s.last_search_index + 1 }
    let s := { s with last_search_highlight := true }
    match index s.last_search_results s.last_search_index with
    | .error e => .error e
    | .ok loc =>
      match b.move_to loc.char loc.line with
      | .error e => .error e
      | .ok b => .ok (s, b)

/-- A number of `search_next` calls in a row. -/
def search_next.times : Nat → search_state → buffer → Except Fault (search_state × buffer)
  | 0, s, b => .ok (s, b)
  | n + 1, s, b =>
    match search_next s b with
    | .error e => .error e
    | .ok (s, b) => search_next.times n s b

/-! ## Valid cursors and iteration budgets -/

/-- The cursor is valid: `0 <= line < len(data)` and `0 <= char <= len(data[line])`. -/
def buffer.cursor_valid (b : buffer) : Prop :=
  0 ≤ b.cursor.line ∧ b.cursor.line < (b.data.length : Int) ∧
    0 ≤ b.cursor.char ∧
    b.cursor.char ≤ (((b.data.getD b.cursor.line.toNat []).length : Nat) : Int)

instance (b : buffer) : Decidable b.cursor_valid := by
  unfold buffer.cursor_valid; infer_instance

/-- The budget `fuel` is enough for the buffer: it exceeds the length of every line
and is at least twice the number of lines. -/
def buffer.enough (b : buffer) (fuel : Nat) : Prop :=
  2 * b.data.length ≤ fuel ∧ ∀ ln ∈ b.data, ln.length < fuel

instance (b : buffer) (fuel : Nat) : Decidable (b.enough fuel) := by
  unfold buffer.enough; infer_instance

end R

/-! # Theorems -/

/-! ## Go's 64-bit integers and their conversion to `float64` -/

theorem int_wrap_eq (x : Int) (h0 : -2 ^ 63 ≤ x) (h1 : x < 2 ^ 63) : int_wrap x = x := by
  unfold int_wrap
  omega

theorem int_wrap_range (x : Int) : -2 ^ 63 ≤ int_wrap x ∧ int_wrap x < 2 ^ 63 := by
  unfold int_wrap
  omega

theorem float64_exact (n : Int) (h : n.natAbs ≤ 2 ^ 53) : float64 n = n := by
  rcases Nat.lt_or_ge n.natAbs (2 ^ 53) with hlt | hge
  · unfold float64
    have he : float64.excess 64 n.natAbs = 0 := by
      unfold float64.excess
      rw [if_pos hlt]
    simp only [he, pow_zero, Nat.div_one, Nat.mod_one, Nat.mul_zero, Nat.mul_one]
    rw [if_neg (by omega)]
    exact Int.sign_mul_natAbs n
  · have ha : n.natAbs = 2 ^ 53 := Nat.le_antisymm h hge
    rcases Int.natAbs_eq n with hn | hn
    · rw [hn, ha]
      decide
    · rw [hn, ha]
      decide

theorem math_Floor_half_exact (n : Int) (h0 : -2 ^ 53 ≤ n) (h1 : n ≤ 2 ^ 53) :
    math_Floor_half n = n / 2 := by
  unfold math_Floor_half
  rw [float64_exact n (by omega)]

namespace Take2

/-! ## The point-addressed buffer -/

theorem Buffer.String_eq (b : Buffer) : b.String = b.r.runes := by
  unfold Buffer.String Rope.Len Rope.String
  split
  · rename_i h
    have h0 : b.r.runes.length = 0 := by exact_mod_cast h
    exact (List.length_eq_zero.mp h0).symm
  · rfl

theorem Buffer.CacheLines_r (b : Buffer) : b.CacheLines.r = b.r := rfl

theorem Buffer.CacheLines_Point (b : Buffer) : b.CacheLines.Point = b.Point := rfl

theorem Buffer.CacheLines_Modified (b : Buffer) : b.CacheLines.Modified = b.Modified := rfl

theorem Buffer.PointMove_r (b : Buffer) (amount : Int) : (b.PointMove amount).r = b.r := by
  unfold Buffer.PointMove
  simp only []
  split
  · rfl
  · split <;> rfl

theorem Buffer.PointMove_Modified (b : Buffer) (amount : Int) :
    (b.PointMove amount).Modified = b.Modified := by
  unfold Buffer.PointMove
  simp only []
  split
  · rfl
  · split <;> rfl

theorem Buffer.PointMove_Point (b : Buffer) (amount : Int) :
    (b.PointMove amount).Point
      = max (-1) (min (int_wrap (b.Point + amount)) (b.r.Len - 1)) := by
  have hlen : (0 : Int) ≤ b.r.Len := by unfold Rope.Len; exact Int.natCast_nonneg _
  unfold Buffer.PointMove NewLocation
  simp only []
  split
  · show (-1 : Int) = _
    omega
  · split
    · show b.r.Len - 1 = _
      omega
    · show int_wrap (b.Point + amount) = _
      omega

theorem Buffer.PointMove_eq (b : Buffer) (amount : Int) :
    b.PointMove amount
      = { b with Point := max (-1) (min (int_wrap (b.Point + amount)) (b.r.Len - 1)) } := by
  rw [← Buffer.PointMove_Point b amount]
  unfold Buffer.PointMove
  simp only []
  split
  · rfl
  · split <;> rfl

theorem Buffer.PointMove_inRange (b : Buffer) (amount : Int) :
    (b.PointMove amount).PointInRange := by
  have hlen : (0 : Int) ≤ b.r.Len := by unfold Rope.Len; exact Int.natCast_nonneg _
  unfold Buffer.PointInRange
  rw [Buffer.PointMove_r, Buffer.PointMove_Point]
  omega

theorem Rope.Insert_ok (r : Rope) (idx : Int) (text : List Char)
    (h0 : 0 ≤ idx) (h1 : idx ≤ r.Len) :
    r.Insert idx text = .ok ⟨r.runes.take idx.toNat ++ text ++ r.runes.drop idx.toNat⟩ := by
  unfold Rope.Insert
  rw [if_pos ⟨h0, h1⟩]

theorem Rope.Delete_ok (r : Rope) (idx count : Int)
    (h0 : 0 ≤ idx) (h1 : idx ≤ r.Len) (h2 : 0 ≤ count) :
    r.Delete idx count
      = .ok ⟨r.runes.take idx.toNat ++ r.runes.drop (idx.toNat + count.toNat)⟩ := by
  unfold Rope.Delete
  rw [if_pos ⟨h0, h1, h2⟩]

theorem Rope.Len_insert (r : Rope) (n : Nat) (text : List Char) (h : (n : Int) ≤ r.Len) :
    Rope.Len ⟨r.runes.take n ++ text ++ r.runes.drop n⟩ = r.Len + text.length := by
  unfold Rope.Len at *
  simp only [List.length_append, List.length_take, List.length_drop]
  omega

/-- C1: for every buffer with `-1 <= Point <= length-1` and every text, `Insert`
returns; the text afterwards is the old text up to offset `Point+1`, then `text`,
then the rest of the old text; `Modified` is true; `Point` has advanced by the
number of runes of `text`. The length of a Go text is an `int`: the statement about
`Point` is for texts whose length after the insertion is below `2^63`, as it is for
every text a Go program holds. -/
theorem Buffer.Insert_spec (b : Buffer) (text : List Char) (h : b.PointInRange) :
    ∃ b', b.Insert text = .ok b' ∧
      b'.String = b.String.take (b.Point + 1).toNat ++ text
        ++ b.String.drop (b.Point + 1).toNat ∧
      b'.Modified = true ∧
      (b.r.Len + (text.length : Int) < 2 ^ 63 →
        b'.Point = b.Point + (text.length : Int)) := by
  obtain ⟨hlo, hhi⟩ := h
  have hins := Rope.Insert_ok b.r (b.Point + 1) text (by omega) (by omega)
  unfold Buffer.Insert
  simp only [hins]
  refine ⟨_, rfl, ?_, ?_, ?_⟩
  · rw [Buffer.String_eq, Buffer.String_eq, Buffer.PointMove_r, Buffer.CacheLines_r]
  · rw [Buffer.PointMove_Modified, Buffer.CacheLines_Modified]
  · intro hgo
    rw [Buffer.PointMove_Point, Buffer.CacheLines_r, Buffer.CacheLines_Point]
    have hl := Rope.Len_insert b.r (b.Point + 1).toNat text (by
      rw [Int.toNat_of_nonneg (by omega)]; omega)
    simp only [] at hl ⊢
    rw [hl]
    have : (0 : Int) ≤ (text.length : Int) := Int.natCast_nonneg _
    rw [int_wrap_eq _ (by omega) (by omega)]
    omega

/-- Witness of C1: text `"hello world\nfoo bar"`, point moved from `-1` to `0`,
then `Insert(" test")`: the text starts with `"h test"` and the point is `5`. -/
theorem Buffer.Insert_spec_witness :
    ((NewBuffer "hello world\nfoo bar".toList).PointMove 1).Point = 0 ∧
    ∃ b', ((NewBuffer "hello world\nfoo bar".toList).PointMove 1).Insert " test".toList
        = .ok b' ∧
      b'.String = "h testello world\nfoo bar".toList ∧
      b'.Modified = true ∧ b'.Point = 5 := by
  refine ⟨by decide, ?_⟩
  obtain ⟨b', h1, h2, h3, h4⟩ :=
    Buffer.Insert_spec ((NewBuffer "hello world\nfoo bar".toList).PointMove 1)
      " test".toList (by decide)
  refine ⟨b', h1, ?_, h3, ?_⟩
  · rw [h2]; decide
  · rw [h4 (by decide)]; decide

/-- C2, the code at two failing inputs: with text `"abc"` and the point after the
last rune (`Point = 2`), `Backspace` removes nothing and moves the point to `1`; with
the point after the first rune (`Point = 0`) it removes the rune at offset `1`, the
one after the point, and leaves `"ac"`. In neither case is the rune at offset
`Point` removed. -/
theorem Buffer.Backspace_keeps_rune_before_point :
    ((NewBuffer "abc".toList).PointMove 3).Point = 2 ∧
    (∃ b', ((NewBuffer "abc".toList).PointMove 3).Backspace = .ok b' ∧
      b'.String = "abc".toList ∧ b'.Point = 1) ∧
    ((NewBuffer "abc".toList).PointMove 1).Point = 0 ∧
    (∃ b', ((NewBuffer "abc".toList).PointMove 1).Backspace = .ok b' ∧
      b'.String = "ac".toList ∧ b'.Point = -1) := by
  refine ⟨by decide, ⟨_, rfl, by decide, by decide⟩, by decide, ⟨_, rfl, by decide, by decide⟩⟩

/-- C3: for every buffer with `-1 <= Point <= length-1` and every `count >= 0`,
`Delete(count)` returns and leaves `Point` as it was; when `Point+1 < length` the
text loses exactly the runes at the offsets from `Point+1` up to, not including,
`min(Point+1+count, length)` and `Modified` becomes true; when `Point+1 >= length`
the text and `Modified` are unchanged. -/
theorem Buffer.Delete_spec (b : Buffer) (count : Int) (h : b.PointInRange)
    (hc : 0 ≤ count) :
    ∃ b', b.Delete count = .ok b' ∧ b'.Point = b.Point ∧
      (b.Point + 1 < b.r.Len →
        b'.String = b.String.take (b.Point + 1).toNat
          ++ b.String.drop (min (b.Point + 1 + count) b.r.Len).toNat ∧
        b'.Modified = true) ∧
      (b.r.Len ≤ b.Point + 1 → b'.String = b.String ∧ b'.Modified = b.Modified) := by
  obtain ⟨hlo, hhi⟩ := h
  unfold Buffer.Delete
  by_cases hg : b.Point < b.r.Len - 1
  · rw [if_pos hg]
    have hdel := Rope.Delete_ok b.r (b.Point + 1) count (by omega) (by omega) hc
    simp only [hdel]
    refine ⟨_, rfl, rfl, ?_, ?_⟩
    · intro _
      refine ⟨?_, rfl⟩
      rw [Buffer.String_eq, Buffer.String_eq, Buffer.CacheLines_r]
      simp only []
      congr 1
      by_cases hle : b.Point + 1 + count ≤ b.r.Len
      · rw [min_eq_left hle]
        congr 1
        omega
      · have hlt : b.r.Len < b.Point + 1 + count := by omega
        rw [min_eq_right (le_of_lt hlt)]
        have hlen : b.r.Len = (b.r.runes.length : Int) := rfl
        rw [List.drop_eq_nil_of_le (by omega), List.drop_eq_nil_of_le (by omega)]
    · intro hge
      omega
  · rw [if_neg hg]
    refine ⟨b, rfl, rfl, ?_, ?_⟩
    · intro hlt
      omega
    · intro _
      exact ⟨rfl, rfl⟩

/-- Witness of C3: text `"abcd"`, point `0`, `Delete(2)` removes the runes at offsets
`1` and `2`. -/
theorem Buffer.Delete_spec_witness :
    ∃ b', ((NewBuffer "abcd".toList).PointMove 1).Delete 2 = .ok b' ∧
      b'.Point = 0 ∧ b'.String = "ad".toList ∧ b'.Modified = true := by
  obtain ⟨b', h1, h2, h3, _⟩ :=
    Buffer.Delete_spec ((NewBuffer "abcd".toList).PointMove 1) 2 (by decide) (by decide)
  obtain ⟨h4, h5⟩ := h3 (by decide)
  refine ⟨b', h1, ?_, ?_, h5⟩
  · rw [h2]; decide
  · rw [h4]; decide

/-- C4 as the code has it: for every buffer and every integer amount, `PointMove(amount)`
changes nothing but `Point`, which becomes `clamp(s, -1, length-1)`, written
`max (-1) (min s (length - 1))`, where `s` is the sum `Point + amount` as Go computes
it, wrapped into 64 bits. Whenever `Point + amount` lies in `[-2^63, 2^63 - 1]` the
new `Point` is `clamp(Point + amount, -1, length-1)`. In every case the text is
unchanged, the new `Point` lies in `[-1, length-1]`, and it is `-1` for an empty
buffer. -/
theorem Buffer.PointMove_spec (b : Buffer) (amount : Int) :
    b.PointMove amount
      = { b with Point := max (-1) (min (int_wrap (b.Point + amount)) (b.r.Len - 1)) } ∧
    (-2 ^ 63 ≤ b.Point + amount → b.Point + amount < 2 ^ 63 →
      b.PointMove amount
        = { b with Point := max (-1) (min (b.Point + amount) (b.r.Len - 1)) }) ∧
    (b.PointMove amount).String = b.String ∧
    (b.PointMove amount).PointInRange ∧
    (b.r.Len = 0 → (b.PointMove amount).Point = -1) := by
  have hlen : (0 : Int) ≤ b.r.Len := by unfold Rope.Len; exact Int.natCast_nonneg _
  have hP := Buffer.PointMove_Point b amount
  refine ⟨Buffer.PointMove_eq b amount, ?_, ?_, ?_, ?_⟩
  · intro h0 h1
    rw [Buffer.PointMove_eq b amount, int_wrap_eq _ h0 h1]
  · rw [Buffer.String_eq, Buffer.String_eq, Buffer.PointMove_r]
  · exact Buffer.PointMove_inRange b amount
  · intro h0
    rw [hP]
    omega

/-- Witness of C4: text `"abc"` with the point at `-1`; `PointMove(2)` puts the point
at `1`, `PointMove(7)` at `2`, the last offset, and `PointMove(-7)` leaves it at
`-1`. -/
theorem Buffer.PointMove_spec_witness :
    ((NewBuffer "abc".toList).PointMove 2).Point = 1 ∧
    ((NewBuffer "abc".toList).PointMove 7).Point = 2 ∧
    ((NewBuffer "abc".toList).PointMove (-7)).Point = -1 := by
  have h2 := (Buffer.PointMove_spec (NewBuffer "abc".toList) 2).2.1 (by decide) (by decide)
  have h7 := (Buffer.PointMove_spec (NewBuffer "abc".toList) 7).2.1 (by decide) (by decide)
  have hm := (Buffer.PointMove_spec (NewBuffer "abc".toList) (-7)).2.1 (by decide)
    (by decide)
  refine ⟨?_, ?_, ?_⟩
  · rw [h2]; decide
  · rw [h7]; decide
  · rw [hm]; decide

/-- C4 as stated fails: text `"a"`, point `-1`, amount `-2^63`, the least `int`. Go's
sum `-1 + amount` wraps to `2^63 - 1`, which is above `length-1 = 0`, so `PointMove`
puts the point at `0`; `clamp(Point + amount, -1, length-1)` with the sum of the
integers is `-1`. -/
theorem Buffer.PointMove_wraps_at_least_int :
    (NewBuffer "a".toList).Point = -1 ∧
    (NewBuffer "a".toList).r.Len = 1 ∧
    ((NewBuffer "a".toList).PointMove (-2 ^ 63)).Point = 0 ∧
    max (-1) (min ((NewBuffer "a".toList).Point + -2 ^ 63)
      ((NewBuffer "a".toList).r.Len - 1)) = -1 := by
  decide

theorem Buffer.FindFirstInBackward.loop_inRange (b : Buffer) (contents search : List Char)
    (h : b.PointInRange) (hlen : (contents.length : Int) = b.r.Len) :
    ∀ (pos : Nat) (acc : List Char), (pos : Int) ≤ max b.Point 0 →
      ∃ b', Buffer.FindFirstInBackward.loop b contents search pos acc = .ok b' ∧
        b'.PointInRange := by
  intro pos
  induction pos with
  | zero =>
    intro acc _
    exact ⟨b, rfl, h⟩
  | succ n ih =>
    intro acc hpos
    obtain ⟨hlo, hhi⟩ := h
    have hidx : n + 1 < contents.length := by
      have : ((n + 1 : Nat) : Int) < (contents.length : Int) := by rw [hlen]; omega
      exact_mod_cast this
    unfold Buffer.FindFirstInBackward.loop
    rw [List.getElem?_eq_getElem hidx]
    simp only []
    split
    · refine ⟨_, rfl, ?_⟩
      unfold Buffer.PointInRange NewLocation
      simp only []
      omega
    · exact ih _ (by omega)

/-- C5: `-1 <= Point <= length-1` holds after `NewBuffer`, and from a buffer where
it holds each of `Insert(text)`, `Delete(count)` with `count >= 0`, `Backspace`,
`PointMove(amount)` and `FindFirstInBackward(needle)` returns a buffer where it
holds again, for all arguments. -/
theorem Buffer.PointInRange_invariant :
    (∀ text, (NewBuffer text).PointInRange) ∧
    ∀ b : Buffer, b.PointInRange →
      (∀ text, ∃ b', b.Insert text = .ok b' ∧ b'.PointInRange) ∧
      (∀ count, 0 ≤ count → ∃ b', b.Delete count = .ok b' ∧ b'.PointInRange) ∧
      (∃ b', b.Backspace = .ok b' ∧ b'.PointInRange) ∧
      (∀ amount, (b.PointMove amount).PointInRange) ∧
      (∀ needle, ∃ b', b.FindFirstInBackward needle = .ok b' ∧ b'.PointInRange) := by
  refine ⟨?_, ?_⟩
  · intro text
    unfold NewBuffer Buffer.PointInRange Buffer.CacheLines NewLocation Rope.New Rope.Len
    simp only []
    have : (0 : Int) ≤ (text.length : Int) := Int.natCast_nonneg _
    omega
  · intro b h
    have hdel : ∀ count, 0 ≤ count →
        ∃ b', b.Delete count = .ok b' ∧ b'.PointInRange := by
      intro count hc
      obtain ⟨hlo, hhi⟩ := h
      unfold Buffer.Delete
      by_cases hg : b.Point < b.r.Len - 1
      · rw [if_pos hg]
        have hd := Rope.Delete_ok b.r (b.Point + 1) count (by omega) (by omega) hc
        simp only [hd]
        refine ⟨_, rfl, ?_⟩
        unfold Buffer.PointInRange Buffer.CacheLines Rope.Len
        simp only [List.length_append, List.length_take, List.length_drop]
        have hl : b.r.Len = (b.r.runes.length : Int) := rfl
        refine ⟨hlo, ?_⟩
        have h1 : (b.Point + 1).toNat ≤ b.r.runes.length := by omega
        rw [min_eq_left h1]
        push_cast
        rw [Int.toNat_of_nonneg (by omega)]
        omega
      · rw [if_neg hg]
        exact ⟨b, rfl, ⟨hlo, hhi⟩⟩
    refine ⟨?_, hdel, ?_, ?_, ?_⟩
    · intro text
      unfold Buffer.Insert
      have hins := Rope.Insert_ok b.r (b.Point + 1) text (by have := h.1; omega)
        (by have := h.2; omega)
      simp only [hins]
      exact ⟨_, rfl, Buffer.PointMove_inRange _ _⟩
    · unfold Buffer.Backspace
      by_cases hp : b.Point > -1
      · rw [if_pos hp]
        obtain ⟨b1, hb1, _⟩ := hdel 1 (by decide)
        rw [hb1]
        exact ⟨_, rfl, Buffer.PointMove_inRange _ _⟩
      · rw [if_neg hp]
        exact ⟨b, rfl, h⟩
    · intro amount
      exact Buffer.PointMove_inRange _ _
    · intro needle
      unfold Buffer.FindFirstInBackward
      refine Buffer.FindFirstInBackward.loop_inRange b _ _ h ?_ _ _ ?_
      · rw [Buffer.String_eq]; rfl
      · omega

/-- Witness of C5: the buffer `"abc"` with the point at `1` satisfies the invariant,
and so does every buffer the five operations return from it. -/
theorem Buffer.PointInRange_invariant_witness :
    ((NewBuffer "abc".toList).PointMove 2).PointInRange ∧
    ((∀ text, ∃ b', ((NewBuffer "abc".toList).PointMove 2).Insert text = .ok b' ∧
        b'.PointInRange) ∧
      (∀ count, 0 ≤ count →
        ∃ b', ((NewBuffer "abc".toList).PointMove 2).Delete count = .ok b' ∧
          b'.PointInRange) ∧
      (∃ b', ((NewBuffer "abc".toList).PointMove 2).Backspace = .ok b' ∧ b'.PointInRange) ∧
      (∀ amount, (((NewBuffer "abc".toList).PointMove 2).PointMove amount).PointInRange) ∧
      (∀ needle, ∃ b', ((NewBuffer "abc".toList).PointMove 2).FindFirstInBackward needle
        = .ok b' ∧ b'.PointInRange)) :=
  ⟨by decide, Buffer.PointInRange_invariant.2 _ (by decide)⟩

/-! ## Mode.HandleEvent -/

end Take2

namespace R

/-! ## Key lists and the dispatch step -/

theorem key.matches_iff_eq (k1 k2 : R.key) : k1.matches k2 = true ↔ k1 = k2 := by
  cases k1
  cases k2
  simp [key.matches, and_assoc]

theorem key_list.matches.loop_iff :
    ∀ (l1 l2 : List key), l1.length = l2.length →
      (key_list.matches.loop l1 l2 = true ↔ l1 = l2) := by
  intro l1
  induction l1 with
  | nil =>
    intro l2 h
    cases l2 with
    | nil => simp [key_list.matches.loop]
    | cons b t => simp at h
  | cons a t ih =>
    intro l2 h
    cases l2 with
    | nil => simp at h
    | cons b t2 =>
      have ht : t.length = t2.length := by simpa using h
      unfold key_list.matches.loop
      by_cases hab : a.matches b = true
      · simp only [hab, Bool.not_true, Bool.false_eq_true, if_false, ih t2 ht]
        rw [(key.matches_iff_eq a b).mp hab]
        simp
      · have hne : a ≠ b := fun he => hab ((key.matches_iff_eq a b).mpr he)
        simp [hab, hne]

theorem key_list.matches_iff (kl1 kl2 : key_list) :
    kl1.matches kl2 = true ↔ kl1.keys = kl2.keys := by
  unfold key_list.matches
  by_cases h : kl1.keys.length = kl2.keys.length
  · simp only [ne_eq, h, not_true_eq_false, if_false]
    exact key_list.matches.loop_iff _ _ h
  · simp only [ne_eq, h, not_false_eq_true, if_true, Bool.false_eq_true, false_iff]
    intro he
    exact h (by rw [he])

theorem key_list.eq_of_keys (kl1 kl2 : key_list) (h : kl1.keys = kl2.keys) : kl1 = kl2 := by
  cases kl1
  cases kl2
  simp only [key_list.mk.injEq]
  exact h

theorem key_list.has_suffix.loop_spec (kl1 kl2 : key_list) :
    ∀ n : Nat,
      (key_list.has_suffix.loop kl1 kl2 n = some kl2 ∧
          ∃ i, i < n ∧ kl1.keys.drop i = kl2.keys) ∨
        (key_list.has_suffix.loop kl1 kl2 n = none ∧
          ∀ i, i < n → kl1.keys.drop i ≠ kl2.keys) := by
  intro n
  induction n with
  | zero =>
    right
    exact ⟨rfl, fun i hi => absurd hi (Nat.not_lt_zero i)⟩
  | succ n ih =>
    unfold key_list.has_suffix.loop
    by_cases hm : key_list.matches ⟨kl1.keys.drop n⟩ kl2 = true
    · left
      have hk : kl1.keys.drop n = kl2.keys := (key_list.matches_iff _ _).mp hm
      refine ⟨?_, n, Nat.lt_succ_self n, hk⟩
      simp only [hm, if_true]
      exact congrArg some (key_list.eq_of_keys _ _ hk)
    · have hk : kl1.keys.drop n ≠ kl2.keys := fun he =>
        hm ((key_list.matches_iff ⟨kl1.keys.drop n⟩ kl2).mpr he)
      simp only [hm, Bool.false_eq_true, if_false]
      rcases ih with ⟨hres, i, hi, hd⟩ | ⟨hres, hall⟩
      · left
        exact ⟨hres, i, Nat.lt_succ_of_lt hi, hd⟩
      · right
        refine ⟨hres, ?_⟩
        intro i hi
        rcases Nat.lt_succ_iff_lt_or_eq.mp hi with hlt | rfl
        · exact hall i hlt
        · exact hk

theorem key_list.drop_eq_iff_suffix (l s : List key) :
    (∃ i, i < l.length ∧ l.drop i = s) ↔ (s ≠ [] ∧ s <:+ l) := by
  constructor
  · rintro ⟨i, hi, hd⟩
    refine ⟨?_, ?_⟩
    · intro hs
      rw [hs] at hd
      have := List.drop_eq_nil_iff.mp hd
      omega
    · rw [← hd]
      exact List.drop_suffix i l
  · rintro ⟨hne, t, ht⟩
    refine ⟨t.length, ?_, ?_⟩
    · rw [← ht, List.length_append]
      have : 0 < s.length := List.length_pos.mpr hne
      omega
    · rw [← ht, List.drop_left]

theorem key_list.has_suffix_some (kl1 kl2 : key_list)
    (hne : kl2.keys ≠ []) (hs : kl2.keys <:+ kl1.keys) :
    kl1.has_suffix kl2 = some kl2 := by
  unfold key_list.has_suffix
  rcases key_list.has_suffix.loop_spec kl1 kl2 kl1.keys.length with ⟨h, _⟩ | ⟨_, hall⟩
  · exact h
  · obtain ⟨i, hi, hd⟩ := (key_list.drop_eq_iff_suffix kl1.keys kl2.keys).mpr ⟨hne, hs⟩
    exact absurd hd (hall i hi)

theorem key_list.has_suffix_none (kl1 kl2 : key_list)
    (h : ¬ (kl2.keys ≠ [] ∧ kl2.keys <:+ kl1.keys)) :
    kl1.has_suffix kl2 = none := by
  unfold key_list.has_suffix
  rcases key_list.has_suffix.loop_spec kl1 kl2 kl1.keys.length with ⟨_, hex⟩ | ⟨hres, _⟩
  · exact absurd ((key_list.drop_eq_iff_suffix kl1.keys kl2.keys).mp hex) h
  · exact hres

theorem dispatch.loop_empty :
    ∀ (bs : List (key_list × CommandId)) (inv : List (CommandId × key_list)),
      dispatch.loop bs { keys_entered := ⟨[]⟩, invoked := inv }
        = { keys_entered := ⟨[]⟩, invoked := inv } := by
  intro bs
  induction bs with
  | nil => intro inv; rfl
  | cons hd tl ih =>
    intro inv
    obtain ⟨kl, f⟩ := hd
    unfold dispatch.loop
    have hnone : key_list.has_suffix ⟨[]⟩ kl = none := rfl
    simp only [hnone]
    exact ih inv

theorem dispatch.loop_no_match (ke : key_list) :
    ∀ (bs : List (key_list × CommandId)) (inv : List (CommandId × key_list)),
      (∀ p ∈ bs, p.1.keys ≠ [] → ¬ p.1.keys <:+ ke.keys) →
      dispatch.loop bs { keys_entered := ke, invoked := inv }
        = { keys_entered := ke, invoked := inv } := by
  intro bs
  induction bs with
  | nil => intro inv _; rfl
  | cons hd tl ih =>
    intro inv h
    obtain ⟨kl, f⟩ := hd
    unfold dispatch.loop
    have hnone : ke.has_suffix kl = none :=
      key_list.has_suffix_none ke kl
        (fun hc => h (kl, f) (List.mem_cons_self _ _) hc.1 hc.2)
    simp only [hnone]
    exact ih inv (fun p hp => h p (List.mem_cons_of_mem _ hp))

theorem dispatch.loop_match (ke : key_list) :
    ∀ (bs : List (key_list × CommandId)) (inv : List (CommandId × key_list)),
      (∃ p ∈ bs, p.1.keys ≠ [] ∧ p.1.keys <:+ ke.keys) →
      ∃ p ∈ bs, p.1.keys ≠ [] ∧ p.1.keys <:+ ke.keys ∧
        dispatch.loop bs { keys_entered := ke, invoked := inv }
          = { keys_entered := ⟨[]⟩, invoked := inv ++ [(p.2, p.1)] } := by
  intro bs
  induction bs with
  | nil =>
    intro _ h
    obtain ⟨p, hp, _⟩ := h
    cases hp
  | cons hd tl ih =>
    intro inv h
    obtain ⟨kl, f⟩ := hd
    unfold dispatch.loop
    by_cases hm : kl.keys ≠ [] ∧ kl.keys <:+ ke.keys
    · refine ⟨(kl, f), List.mem_cons_self _ _, hm.1, hm.2, ?_⟩
      simp only [key_list.has_suffix_some ke kl hm.1 hm.2]
      exact dispatch.loop_empty tl _
    · have htl : ∃ p ∈ tl, p.1.keys ≠ [] ∧ p.1.keys <:+ ke.keys := by
        obtain ⟨p, hp, hp1, hp2⟩ := h
        rcases List.mem_cons.mp hp with rfl | hp'
        · exact absurd ⟨hp1, hp2⟩ hm
        · exact ⟨p, hp', hp1, hp2⟩
      obtain ⟨p, hp, hp1, hp2, hres⟩ := ih inv htl
      refine ⟨p, List.mem_cons_of_mem _ hp, hp1, hp2, ?_⟩
      simp only [key_list.has_suffix_none ke kl hm]
      exact hres

/-- C6 as the code has it: for every binding table (in any visiting order), pending
sequence and incoming key, if some binding with a non-empty key sequence has its
sequence equal to a trailing part of the pending sequence after the key is appended,
then the dispatch step invokes exactly one action, that of such a binding, hands it
the matched trailing part (equal to the binding's sequence), and leaves the pending
sequence empty. -/
theorem dispatch_match (m : mode) (keys_entered : key_list) (ev : key)
    (h : ∃ p ∈ m.bindings, p.1.keys ≠ [] ∧ p.1.keys <:+ (keys_entered.add_key ev).keys) :
    ∃ p ∈ m.bindings, p.1.keys ≠ [] ∧ p.1.keys <:+ (keys_entered.add_key ev).keys ∧
      dispatch m keys_entered ev = { keys_entered := ⟨[]⟩, invoked := [(p.2, p.1)] } := by
  unfold dispatch
  obtain ⟨p, hp, h1, h2, hres⟩ := dispatch.loop_match (keys_entered.add_key ev) m.bindings [] h
  exact ⟨p, hp, h1, h2, by simpa using hres⟩

/-- Witness of C6: bindings `"j" -> 1` and `"g g" -> 2`. With `g` pending, the key
`g` invokes action 2 once with `"g g"`; with `g` pending, the key `j` invokes action 1
with the trailing `"j"` and the leading `g` is dropped. Both leave nothing pending. -/
theorem dispatch_match_witness :
    new_key_list "j".toList = .ok ⟨[⟨0, KeyRune, 'j'⟩]⟩ ∧
    new_key_list "g g".toList = .ok ⟨[⟨0, KeyRune, 'g'⟩, ⟨0, KeyRune, 'g'⟩]⟩ ∧
    dispatch
        { name := "normal",
          bindings := [(⟨[⟨0, KeyRune, 'j'⟩]⟩, 1),
            (⟨[⟨0, KeyRune, 'g'⟩, ⟨0, KeyRune, 'g'⟩]⟩, 2)] }
        ⟨[⟨0, KeyRune, 'g'⟩]⟩ ⟨0, KeyRune, 'g'⟩
      = { keys_entered := ⟨[]⟩,
          invoked := [(2, ⟨[⟨0, KeyRune, 'g'⟩, ⟨0, KeyRune, 'g'⟩]⟩)] } ∧
    dispatch
        { name := "normal",
          bindings := [(⟨[⟨0, KeyRune, 'j'⟩]⟩, 1),
            (⟨[⟨0, KeyRune, 'g'⟩, ⟨0, KeyRune, 'g'⟩]⟩, 2)] }
        ⟨[⟨0, KeyRune, 'g'⟩]⟩ ⟨0, KeyRune, 'j'⟩
      = { keys_entered := ⟨[]⟩, invoked := [(1, ⟨[⟨0, KeyRune, 'j'⟩]⟩)] } := by
  refine ⟨by decide, by decide, ?_, ?_⟩
  · obtain ⟨p, hp, _, h2, hres⟩ := dispatch_match
      { name := "normal",
        bindings := [(⟨[⟨0, KeyRune, 'j'⟩]⟩, 1),
          (⟨[⟨0, KeyRune, 'g'⟩, ⟨0, KeyRune, 'g'⟩]⟩, 2)] }
      ⟨[⟨0, KeyRune, 'g'⟩]⟩ ⟨0, KeyRune, 'g'⟩ (by decide)
    simp only [List.mem_cons, List.mem_singleton, List.not_mem_nil, or_false] at hp
    rcases hp with rfl | rfl
    · exact absurd h2 (by decide)
    · exact hres
  · obtain ⟨p, hp, _, h2, hres⟩ := dispatch_match
      { name := "normal",
        bindings := [(⟨[⟨0, KeyRune, 'j'⟩]⟩, 1),
          (⟨[⟨0, KeyRune, 'g'⟩, ⟨0, KeyRune, 'g'⟩]⟩, 2)] }
      ⟨[⟨0, KeyRune, 'g'⟩]⟩ ⟨0, KeyRune, 'j'⟩ (by decide)
    simp only [List.mem_cons, List.mem_singleton, List.not_mem_nil, or_false] at hp
    rcases hp with rfl | rfl
    · exact hres
    · exact absurd h2 (by decide)

/-- C6 as stated fails for a binding with an empty key sequence: the table holds only
`k("") -> 7`, nothing is pending and the key `x` comes in. The binding's sequence
equals the trailing part of length 0 of the pending sequence, yet no action is
invoked and the pending sequence is not emptied. -/
theorem dispatch_empty_binding_not_invoked :
    (∃ p ∈ [((⟨[]⟩ : key_list), (7 : CommandId))],
      p.1.keys <:+ ((⟨[]⟩ : key_list).add_key ⟨0, KeyRune, 'x'⟩).keys) ∧
    new_key_list [] = .ok ⟨[]⟩ ∧
    dispatch { name := "normal", bindings := [(⟨[]⟩, 7)] } ⟨[]⟩ ⟨0, KeyRune, 'x'⟩
      = { keys_entered := ⟨[⟨0, KeyRune, 'x'⟩]⟩, invoked := [] } := by
  decide

/-- C7: for every binding table, pending sequence and incoming key, if after
appending the key no binding has a non-empty key sequence equal to a trailing part of
the pending sequence, the dispatch step invokes no action and the pending sequence
is the old one followed by the new key. A binding with an empty key sequence never
matches: `has_suffix` returns nil for it on every key list. -/
theorem dispatch_no_match (m : mode) (keys_entered : key_list) (ev : key)
    (h : ∀ p ∈ m.bindings, p.1.keys ≠ [] → ¬ p.1.keys <:+ (keys_entered.add_key ev).keys) :
    dispatch m keys_entered ev
        = { keys_entered := ⟨keys_entered.keys ++ [ev]⟩, invoked := [] } ∧
      ∀ kl1 : key_list, kl1.has_suffix ⟨[]⟩ = none := by
  refine ⟨?_, ?_⟩
  · unfold dispatch
    exact dispatch.loop_no_match (keys_entered.add_key ev) m.bindings [] h
  · intro kl1
    exact key_list.has_suffix_none kl1 ⟨[]⟩ (fun hc => hc.1 rfl)

/-- Witness of C7: bindings `"j" -> 1` and `"g g" -> 2`, nothing pending, key `g`:
no action is invoked and `g` is pending afterwards. -/
theorem dispatch_no_match_witness :
    dispatch
        { name := "normal",
          bindings := [(⟨[⟨0, KeyRune, 'j'⟩]⟩, 1),
            (⟨[⟨0, KeyRune, 'g'⟩, ⟨0, KeyRune, 'g'⟩]⟩, 2)] }
        ⟨[]⟩ ⟨0, KeyRune, 'g'⟩
      = { keys_entered := ⟨[⟨0, KeyRune, 'g'⟩]⟩, invoked := [] } :=
  (dispatch_no_match
    { name := "normal",
      bindings := [(⟨[⟨0, KeyRune, 'j'⟩]⟩, 1),
        (⟨[⟨0, KeyRune, 'g'⟩, ⟨0, KeyRune, 'g'⟩]⟩, 2)] }
    ⟨[]⟩ ⟨0, KeyRune, 'g'⟩ (by decide)).1

/-! ## Key notation: parse and render -/

theorem strings_Split_cons (c sep : Char) (cs : List Char) :
    strings_Split (c :: cs) sep
      = if c = sep then [] :: strings_Split cs sep
        else
          match strings_Split cs sep with
          | [] => [[c]]
          | p :: ps => (c :: p) :: ps := by
  rw [strings_Split]

theorem strings_Split_of_not_mem (sep : Char) :
    ∀ p : List Char, sep ∉ p → strings_Split p sep = [p] := by
  intro p
  induction p with
  | nil => intro _; rfl
  | cons c t ih =>
    intro h
    have hc : c ≠ sep := fun he => h (by rw [he]; exact List.mem_cons_self _ _)
    have ht : sep ∉ t := fun hm => h (List.mem_cons_of_mem _ hm)
    rw [strings_Split_cons, if_neg hc, ih ht]

theorem strings_Split_append_sep (sep : Char) (rest : List Char) :
    ∀ p : List Char, sep ∉ p →
      strings_Split (p ++ sep :: rest) sep = p :: strings_Split rest sep := by
  intro p
  induction p with
  | nil =>
    intro _
    show strings_Split (sep :: rest) sep = _
    rw [strings_Split_cons, if_pos rfl]
  | cons c t ih =>
    intro h
    have hc : c ≠ sep := fun he => h (by rw [he]; exact List.mem_cons_self _ _)
    have ht : sep ∉ t := fun hm => h (List.mem_cons_of_mem _ hm)
    show strings_Split (c :: (t ++ sep :: rest)) sep = _
    rw [strings_Split_cons, if_neg hc, ih ht]

theorem strings_Split_Join (sep : Char) :
    ∀ ps : List (List Char), ps ≠ [] → (∀ p ∈ ps, sep ∉ p) →
      strings_Split (strings_Join ps [sep]) sep = ps := by
  intro ps
  induction ps with
  | nil => intro h; exact absurd rfl h
  | cons p t ih =>
    intro _ hall
    have hp : sep ∉ p := hall p (List.mem_cons_self _ _)
    cases t with
    | nil =>
      show strings_Split p sep = [p]
      exact strings_Split_of_not_mem sep p hp
    | cons q rest =>
      show strings_Split (p ++ [sep] ++ strings_Join (q :: rest) [sep]) sep = _
      rw [List.append_assoc, List.singleton_append, strings_Split_append_sep sep _ p hp,
        ih (List.cons_ne_nil _ _) (fun x hx => hall x (List.mem_cons_of_mem _ hx))]

theorem strings_Join_mem (sep : List Char) (x : Char) :
    ∀ ps : List (List Char), x ∈ strings_Join ps sep → x ∈ sep ∨ ∃ p ∈ ps, x ∈ p := by
  intro ps
  induction ps with
  | nil => intro h; cases h
  | cons p t ih =>
    intro h
    cases t with
    | nil =>
      right
      exact ⟨p, List.mem_cons_self _ _, h⟩
    | cons q rest =>
      have h' : x ∈ p ++ sep ++ strings_Join (q :: rest) sep := h
      rcases List.mem_append.mp h' with h1 | h2
      · rcases List.mem_append.mp h1 with h3 | h4
        · right
          exact ⟨p, List.mem_cons_self _ _, h3⟩
        · left
          exact h4
      · rcases ih h2 with h5 | ⟨r, hr, hx⟩
        · left
          exact h5
        · right
          exact ⟨r, List.mem_cons_of_mem _ hr, hx⟩

theorem chord.modifiers_mem (c : chord) (p : List Char) (hp : p ∈ c.modifiers) :
    p = ['C'] ∨ p = ['S'] ∨ p = ['A'] ∨ p = ['M'] := by
  obtain ⟨C, S, A, M, tok⟩ := c
  unfold chord.modifiers at hp
  cases C <;> cases S <;> cases A <;> cases M <;> simp at hp <;> tauto

theorem chord.part_no_sep (c : chord) (sep : Char) (hC : sep ≠ 'C') (hS : sep ≠ 'S')
    (hA : sep ≠ 'A') (hM : sep ≠ 'M') (htok : sep ∉ c.token.text) :
    ∀ p ∈ c.modifiers ++ [c.token.text], sep ∉ p := by
  intro p hp
  rcases List.mem_append.mp hp with hm | ht
  · rcases chord.modifiers_mem c p hm with rfl | rfl | rfl | rfl <;>
      simp only [List.mem_singleton] <;> assumption
  · rw [List.mem_singleton.mp ht]
    exact htok

theorem key_token.text_no_sep (t : key_token) (h : t.wellFormed) :
    '-' ∉ t.text ∧ ' ' ∉ t.text := by
  cases t with
  | literal c =>
    obtain ⟨h1, h2⟩ := h
    simp only [key_token.text, List.mem_singleton]
    exact ⟨fun he => h1 he.symm, fun he => h2 he.symm⟩
  | _ => exact ⟨by decide, by decide⟩

theorem key_token.text_nonempty (t : key_token) : t.text ≠ [] := by
  cases t <;> simp [key_token.text]

theorem strings_Join_ne_nil (sep : List Char) :
    ∀ ps : List (List Char), (∃ p ∈ ps, p ≠ []) → strings_Join ps sep ≠ [] := by
  intro ps
  induction ps with
  | nil => rintro ⟨p, hp, _⟩; cases hp
  | cons p t ih =>
    rintro ⟨q, hq, hne⟩
    cases t with
    | nil =>
      rcases List.mem_singleton.mp hq with rfl
      exact hne
    | cons r rest =>
      show p ++ sep ++ strings_Join (r :: rest) sep ≠ []
      rcases List.mem_cons.mp hq with rfl | hq'
      · simp [hne]
      · have := ih ⟨q, hq', hne⟩
        simp [this]

theorem chord.text_ne_nil (c : chord) : c.text ≠ [] := by
  unfold chord.text
  exact strings_Join_ne_nil _ _
    ⟨c.token.text, List.mem_append_right _ (List.mem_singleton_self _),
      key_token.text_nonempty _⟩

theorem chord.text_no_space (c : chord) (h : c.token.wellFormed) : ' ' ∉ c.text := by
  unfold chord.text
  intro hmem
  rcases strings_Join_mem _ _ _ hmem with hs | ⟨p, hp, hx⟩
  · simp at hs
  · exact chord.part_no_sep c ' ' (by decide) (by decide) (by decide) (by decide)
      (key_token.text_no_sep _ h).2 p hp hx

theorem chord.modifiers_mask (c : chord) :
    new_key.modifiers c.modifiers ModNone = c.mask := by
  obtain ⟨C, S, A, M, tok⟩ := c
  cases C <;> cases S <;> cases A <;> cases M <;>
    simp [new_key.modifiers, chord.modifiers, chord.mask, ModNone, ModCtrl, ModShift, ModAlt,
      ModMeta]

theorem chord.new_key_text (c : chord) (h : c.token.wellFormed) :
    new_key c.text = .ok c.key := by
  have hsplit : strings_Split c.text '-' = c.modifiers ++ [c.token.text] := by
    unfold chord.text
    exact strings_Split_Join '-' _ (by simp)
      (chord.part_no_sep c '-' (by decide) (by decide) (by decide) (by decide)
        (key_token.text_no_sep _ h).1)
  unfold new_key
  simp only [hsplit, List.dropLast_concat, List.getLast?_append, List.getLast?_singleton,
    chord.modifiers_mask]
  simp only [Option.or]
  unfold chord.key
  cases c.token <;> simp [key_token.text, key_token.code]

theorem chord.key_String (c : chord) : c.key.String = c.text := by
  obtain ⟨C, S, A, M, tok⟩ := c
  cases C <;> cases S <;> cases A <;> cases M <;> cases tok <;>
    simp [key.String, chord.key, chord.text, chord.mask, chord.modifiers, key_token.code,
      key_token.text, strings_Join, ModCtrl, ModShift, ModAlt, ModMeta, KeyDelete,
      KeyBackspace2, KeyEnter, KeySpace, KeyEscape, KeyTab, KeyRune]
theorem new_key_list.loop_chords :
    ∀ (cs : List chord) (kl : key_list), (∀ c ∈ cs, c.token.wellFormed) →
      new_key_list.loop (cs.map chord.text) kl = .ok ⟨kl.keys ++ cs.map chord.key⟩ := by
  intro cs
  induction cs with
  | nil =>
    intro kl _
    simp [new_key_list.loop]
  | cons c t ih =>
    intro kl h
    have hc : c.token.wellFormed := h c (List.mem_cons_self _ _)
    have ht : ∀ d ∈ t, d.token.wellFormed := fun d hd => h d (List.mem_cons_of_mem _ hd)
    show new_key_list.loop (c.text :: t.map chord.text) kl = _
    unfold new_key_list.loop
    rw [if_pos (chord.text_ne_nil c)]
    simp only [chord.new_key_text c hc]
    rw [ih ⟨kl.keys ++ [c.key]⟩ ht]
    simp

theorem new_key_list_sequence_text (cs : List chord) (h : ∀ c ∈ cs, c.token.wellFormed) :
    new_key_list (chord.sequence_text cs) = .ok ⟨cs.map chord.key⟩ := by
  unfold new_key_list chord.sequence_text
  cases cs with
  | nil => rfl
  | cons c t =>
    have hsplit : strings_Split (strings_Join ((c :: t).map chord.text) [' ']) ' '
        = (c :: t).map chord.text := by
      refine strings_Split_Join ' ' _ (by simp) ?_
      intro p hp
      obtain ⟨d, hd, rfl⟩ := List.mem_map.mp hp
      exact chord.text_no_space d (h d hd)
    simp only [hsplit]
    rw [new_key_list.loop_chords (c :: t) ⟨[]⟩ h]
    simp

theorem key_list.String_chords (cs : List chord) :
    key_list.String ⟨cs.map chord.key⟩ = chord.sequence_text cs := by
  unfold key_list.String chord.sequence_text
  simp only [List.map_map]
  congr 1
  exact List.map_congr_left (fun c _ => chord.key_String c)

/-- C9: for every sequence of chords, written as the chords separated by single
spaces, where a chord is the modifier tokens it carries among `C`, `S`, `A`, `M`, in
that order, and its key token, joined by `-`, and the key token is one of `DEL`,
`BAK`, `RET`, `SPC`, `ESC`, `TAB` or a single character other than `-` and space:
`new_key_list` returns a key list, rendering it gives the same string back, and
parsing the rendered string returns a key list that matches the first one. -/
theorem new_key_list_String_roundtrip (cs : List chord)
    (h : ∀ c ∈ cs, c.token.wellFormed) :
    ∃ kl, new_key_list (chord.sequence_text cs) = .ok kl ∧
      kl.String = chord.sequence_text cs ∧
      ∃ kl', new_key_list kl.String = .ok kl' ∧ kl'.matches kl = true := by
  refine ⟨⟨cs.map chord.key⟩, new_key_list_sequence_text cs h, key_list.String_chords cs, ?_⟩
  refine ⟨⟨cs.map chord.key⟩, ?_, ?_⟩
  · rw [key_list.String_chords]
    exact new_key_list_sequence_text cs h
  · exact (key_list.matches_iff _ _).mpr rfl

/-- Witness of C9: the sequences `"g g"`, `"C-u"` and `"SPC n"`. -/
theorem new_key_list_String_roundtrip_witness :
    (∃ kl, new_key_list "g g".toList = .ok kl ∧ kl.String = "g g".toList ∧
      ∃ kl', new_key_list kl.String = .ok kl' ∧ kl'.matches kl = true) ∧
    (∃ kl, new_key_list "C-u".toList = .ok kl ∧ kl.String = "C-u".toList ∧
      ∃ kl', new_key_list kl.String = .ok kl' ∧ kl'.matches kl = true) ∧
    (∃ kl, new_key_list "SPC n".toList = .ok kl ∧ kl.String = "SPC n".toList ∧
      ∃ kl', new_key_list kl.String = .ok kl' ∧ kl'.matches kl = true) := by
  have h1 := new_key_list_String_roundtrip
    [⟨false, false, false, false, .literal 'g'⟩, ⟨false, false, false, false, .literal 'g'⟩]
    (by decide)
  have h2 := new_key_list_String_roundtrip [⟨true, false, false, false, .literal 'u'⟩]
    (by decide)
  have h3 := new_key_list_String_roundtrip
    [⟨false, false, false, false, .SPC⟩, ⟨false, false, false, false, .literal 'n'⟩]
    (by decide)
  have e1 : chord.sequence_text
      [⟨false, false, false, false, .literal 'g'⟩, ⟨false, false, false, false, .literal 'g'⟩]
      = "g g".toList := by decide
  have e2 : chord.sequence_text [⟨true, false, false, false, .literal 'u'⟩]
      = "C-u".toList := by decide
  have e3 : chord.sequence_text
      [⟨false, false, false, false, .SPC⟩, ⟨false, false, false, false, .literal 'n'⟩]
      = "SPC n".toList := by decide
  rw [e1] at h1
  rw [e2] at h2
  rw [e3] at h3
  exact ⟨h1, h2, h3⟩

/-! ## Word movement -/

/-- C10, the code at the failing input: the single line `"hello world"` with the
cursor at column 0, the first character of the word `hello`. For every
classification of runes that takes the letters of the line as word characters and
the space as a non-word character, and every budget of at least 6 iterations,
`move_word_forward` succeeds and puts the cursor on column 6, and
`move_word_backward` from there succeeds and puts the cursor on column 5, the space
before `world`, not on column 0 where it started. -/
theorem move_word_forward_backward_hello_world (u : unicode)
    (hw : ∀ c ∈ "helloworld".toList, is_word u c = true)
    (hs : is_word u ' ' = false) (n : Nat) :
    buffer.move_word_forward u (n + 6) ⟨["hello world".toList], ⟨0, 0⟩⟩
        = .ok (⟨["hello world".toList], ⟨0, 6⟩⟩, true) ∧
      buffer.move_word_backward u (n + 6) ⟨["hello world".toList], ⟨0, 6⟩⟩
        = .ok (⟨["hello world".toList], ⟨0, 5⟩⟩, true) := by
  simp only [String.toList] at *
  simp only [List.mem_cons, List.mem_singleton, forall_eq_or_imp, forall_eq,
    List.not_mem_nil] at hw
  obtain ⟨h1, h2, h3, h4, h5, h6, h7, h8, h9, h10, _⟩ := hw
  constructor
  · simp [buffer.move_word_forward, buffer.move_word_forward.outer,
      buffer.move_word_forward.skip_word, buffer.move_word_forward.skip_other,
      buffer.char_under_cursor, index, buffer.last_line, h1, h2, h3, h4, h5, h6, h7, h8, h9,
      h10, hs]
  · simp [buffer.move_word_backward, buffer.move_word_backward.outer,
      buffer.move_word_backward.skip_word, buffer.move_word_backward.skip_other,
      buffer.char_under_cursor, index, buffer.first_line, h1, h2, h3, h4, h5, h6, h7, h8, h9,
      h10, hs]

/-- The run of C10 with the ASCII classification of runes and a budget of 6. -/
theorem move_word_forward_backward_hello_world_witness :
    buffer.move_word_forward unicode.ascii 6 ⟨["hello world".toList], ⟨0, 0⟩⟩
        = .ok (⟨["hello world".toList], ⟨0, 6⟩⟩, true) ∧
      buffer.move_word_backward unicode.ascii 6 ⟨["hello world".toList], ⟨0, 6⟩⟩
        = .ok (⟨["hello world".toList], ⟨0, 5⟩⟩, true) :=
  move_word_forward_backward_hello_world unicode.ascii (by decide) (by decide) 0

end R

/-! ## Splitting and joining lines -/

theorem strings_Split_ne_nil (s : List Char) (sep : Char) : strings_Split s sep ≠ [] := by
  cases s with
  | nil => simp [strings_Split]
  | cons c cs =>
    rw [R.strings_Split_cons]
    split
    · simp
    · split <;> simp

theorem strings_Join_cons_head (c : Char) (p : List Char) (ps : List (List Char))
    (sep : List Char) :
    strings_Join ((c :: p) :: ps) sep = c :: strings_Join (p :: ps) sep := by
  cases ps with
  | nil => rfl
  | cons q rest => simp [strings_Join]

theorem strings_Join_Split (sep : Char) :
    ∀ s : List Char, strings_Join (strings_Split s sep) [sep] = s := by
  intro s
  induction s with
  | nil => rfl
  | cons c cs ih =>
    rw [R.strings_Split_cons]
    by_cases hc : c = sep
    · rw [if_pos hc]
      cases hsp : strings_Split cs sep with
      | nil => exact absurd hsp (strings_Split_ne_nil cs sep)
      | cons q rest =>
        rw [hsp] at ih
        show [] ++ [sep] ++ strings_Join (q :: rest) [sep] = c :: cs
        rw [ih, hc]
        rfl
    · rw [if_neg hc]
      cases hsp : strings_Split cs sep with
      | nil => exact absurd hsp (strings_Split_ne_nil cs sep)
      | cons q rest =>
        rw [hsp] at ih
        show strings_Join ((c :: q) :: rest) [sep] = c :: cs
        rw [strings_Join_cons_head, ih]

theorem strings_Split_length (sep : Char) :
    ∀ s : List Char, (strings_Split s sep).length = 1 + s.count sep := by
  intro s
  induction s with
  | nil => rfl
  | cons c cs ih =>
    rw [R.strings_Split_cons]
    by_cases hc : c = sep
    · rw [if_pos hc, List.length_cons, ih, hc, List.count_cons_self]
      omega
    · rw [if_neg hc]
      cases hsp : strings_Split cs sep with
      | nil => exact absurd hsp (strings_Split_ne_nil cs sep)
      | cons q rest =>
        rw [hsp] at ih
        show ((c :: q) :: rest).length = _
        rw [List.count_cons_of_ne (fun h => hc h.symm)]
        simpa using ih

namespace R

/-! ## Cursor movement, scrolling and keys from events -/

theorem max_eq (a b : Int) : R.max a b = max a b := by
  unfold R.max
  split <;> omega

theorem min_eq (a b : Int) : R.min a b = min a b := by
  unfold R.min
  split <;> omega

theorem index_ok {α : Type} (s : List α) (i : Int) (h0 : 0 ≤ i) (h1 : i < s.length) :
    ∃ a, index s i = .ok a ∧ s[i.toNat]? = some a := by
  have hi : i.toNat < s.length := by omega
  refine ⟨s[i.toNat], ?_, List.getElem?_eq_getElem hi⟩
  unfold index
  rw [if_neg (by omega), List.getElem?_eq_getElem hi]

theorem buffer.move_to_ok (b : buffer) (c l : Int) (h : b.data ≠ []) :
    ∃ b' line, b.move_to c l = .ok b' ∧ b'.data = b.data ∧
      b'.cursor.line = max 0 (min l ((b.data.length : Int) - 1)) ∧
      b.data[b'.cursor.line.toNat]? = some line ∧
      b'.cursor.char = max 0 (min c (line.length : Int)) := by
  have hlen : 0 < b.data.length := List.length_pos.mpr h
  obtain ⟨line, hidx, hget⟩ := index_ok b.data (R.max (R.min l ((b.data.length : Int) - 1)) 0)
    (by rw [max_eq, min_eq]; omega) (by rw [max_eq, min_eq]; omega)
  refine ⟨{ data := b.data,
             cursor := { line := R.max (R.min l ((b.data.length : Int) - 1)) 0,
                         char := R.max (R.min c (line.length : Int)) 0 } }, line, ?_, rfl, ?_,
    hget, ?_⟩
  · unfold buffer.move_to
    simp only [hidx]
  · show R.max (R.min l ((b.data.length : Int) - 1)) 0 = _
    rw [max_eq, min_eq, max_comm]
  · show R.max (R.min c (line.length : Int)) 0 = _
    rw [max_eq, min_eq, max_comm]

/-- C12: for every buffer with at least one line and all integers `c` and `l`,
`move_to(c, l)` returns, leaves `data` as it was, sets `cursor.line` to `l` clamped
into `[0, lineCount-1]` and then `cursor.char` to `c` clamped into `[0, len(line)]`
where `line` is the line the cursor is now on. So `move(0, n)`, which is
`move_to(cursor.char + 0, cursor.line + n)` with Go's 64-bit sums, keeps the column
only up to the length of the line it arrives on; that line is `cursor.line + n`
clamped into `[0, lineCount-1]` whenever the sum lies in `[-2^63, 2^63 - 1]`. -/
theorem buffer.move_to_spec (b : buffer) (h : b.data ≠ []) :
    (∀ c l : Int, ∃ b' line, b.move_to c l = .ok b' ∧ b'.data = b.data ∧
      b'.cursor.line = max 0 (min l ((b.data.length : Int) - 1)) ∧
      b.data[b'.cursor.line.toNat]? = some line ∧
      b'.cursor.char = max 0 (min c (line.length : Int))) ∧
    (∀ n : Int, ∃ b' line, b.move 0 n = .ok b' ∧ b'.data = b.data ∧
      b'.cursor.line
        = max 0 (min (int_wrap (b.cursor.line + n)) ((b.data.length : Int) - 1)) ∧
      b.data[b'.cursor.line.toNat]? = some line ∧
      b'.cursor.char = max 0 (min (int_wrap b.cursor.char) (line.length : Int)) ∧
      (-2 ^ 63 ≤ b.cursor.char → b.cursor.char < 2 ^ 63 →
        b'.cursor.char = max 0 (min b.cursor.char (line.length : Int))) ∧
      (-2 ^ 63 ≤ b.cursor.line + n → b.cursor.line + n < 2 ^ 63 →
        b'.cursor.line
          = max 0 (min (b.cursor.line + n) ((b.data.length : Int) - 1)))) := by
  refine ⟨fun c l => buffer.move_to_ok b c l h, ?_⟩
  intro n
  obtain ⟨b', line, h1, h2, h3, h4, h5⟩ :=
    buffer.move_to_ok b (int_wrap (b.cursor.char + 0)) (int_wrap (b.cursor.line + n)) h
  rw [Int.add_zero] at h5
  refine ⟨b', line, h1, h2, h3, h4, h5, ?_, ?_⟩
  · intro hc0 hc1
    rw [h5, int_wrap_eq _ hc0 hc1]
  · intro hl0 hl1
    rw [h3, int_wrap_eq _ hl0 hl1]

/-- Witness of C12: from column 8 of `"hello world"`, `move(0, 1)` onto the line
`"foo"` ends on line 1 at column 3. -/
theorem buffer.move_to_spec_witness :
    ∃ b', buffer.move ⟨["hello world".toList, "foo".toList], ⟨0, 8⟩⟩ 0 1 = .ok b' ∧
      b'.cursor = ⟨1, 3⟩ := by
  obtain ⟨b', line, h1, _, _, h4, _, h6, h7⟩ :=
    (buffer.move_to_spec ⟨["hello world".toList, "foo".toList], ⟨0, 8⟩⟩ (by decide)).2 1
  refine ⟨b', h1, ?_⟩
  have hl : b'.cursor.line = 1 := by rw [h7 (by decide) (by decide)]; decide
  rw [hl] at h4
  have hline : line = "foo".toList := by
    have : some "foo".toList = some line := h4
    exact (Option.some.inj this).symm
  have h5 := h6 (by decide) (by decide)
  rw [hline] at h5
  have hc : b'.cursor.char = 3 := by rw [h5]; decide
  cases hb : b'.cursor
  rw [hb] at hl hc
  simp only at hl hc
  rw [hl, hc]

/-- C14 as the code has it: for every view with `center_pending` set, every cursor line `L`
and every height `h`, `adjust_scroll` writes `line_offset`, clears `center_pending`
and changes nothing else. When `h - 1` is at most `2^53` in absolute value, so that
its conversion to `float64` is exact, and `L - floor((h-1)/2)` lies in
`[-2^63, 2^63 - 1]`, the offset written is `max (L - floor((h-1)/2)) 1`. -/
theorem view.adjust_scroll_center (v : view) (w h : Int) (hc : v.center_pending = true) :
    v.adjust_scroll w h
      = { v with
          line_offset :=
            max (int_wrap (v.buf.cursor.line - math_Floor_half (int_wrap (h - 1)))) 1,
          center_pending := false } ∧
    (-2 ^ 53 ≤ h - 1 → h - 1 ≤ 2 ^ 53 →
      -2 ^ 63 ≤ v.buf.cursor.line - (h - 1) / 2 →
      v.buf.cursor.line - (h - 1) / 2 < 2 ^ 63 →
      v.adjust_scroll w h
        = { v with line_offset := max (v.buf.cursor.line - (h - 1) / 2) 1,
                   center_pending := false }) := by
  have key : v.adjust_scroll w h
      = { v with
          line_offset :=
            max (int_wrap (v.buf.cursor.line - math_Floor_half (int_wrap (h - 1)))) 1,
          center_pending := false } := by
    unfold view.adjust_scroll
    simp only [hc, if_true, max_eq]
  refine ⟨key, ?_⟩
  intro hh0 hh1 hl0 hl1
  rw [key, int_wrap_eq (h - 1) (by omega) (by omega),
    math_Floor_half_exact (h - 1) hh0 hh1, int_wrap_eq _ hl0 hl1]

/-- Witness of C14: cursor line 50, height 20 give offset 41. -/
theorem view.adjust_scroll_center_witness :
    view.adjust_scroll ⟨⟨List.replicate 100 [], ⟨50, 0⟩⟩, 0, true⟩ 80 20
      = ⟨⟨List.replicate 100 [], ⟨50, 0⟩⟩, 41, false⟩ := by
  rw [(view.adjust_scroll_center ⟨⟨List.replicate 100 [], ⟨50, 0⟩⟩, 0, true⟩ 80 20 rfl).2
    (by decide) (by decide) (by decide) (by decide)]
  decide

/-- C14 as stated fails, at two inputs. (1) Cursor line `L = 2^52 + 4` and height
`h = 2^53 + 4`: `float64(h-1)` is `2^53 + 4`, the value with 53 significant bits
nearest to `2^53 + 3`, so the code subtracts `2^52 + 2` and writes the offset `2`;
`max (L - floor((h-1)/2)) 1` is `3`. (2) Cursor line `L = -2^63`, the least `int`,
and height `h = 3`: Go's difference `L - 1` wraps to `2^63 - 1`, which the code
writes as the offset; `max (L - floor((h-1)/2)) 1` is `1`. -/
theorem view.adjust_scroll_center_rounds_or_wraps :
    ((view.adjust_scroll ⟨⟨[[]], ⟨2 ^ 52 + 4, 0⟩⟩, 0, true⟩ 80 (2 ^ 53 + 4)).line_offset = 2 ∧
      max ((2 ^ 52 + 4 : Int) - ((2 ^ 53 + 4 : Int) - 1) / 2) 1 = 3 ∧
      float64 ((2 ^ 53 + 4 : Int) - 1) = 2 ^ 53 + 4) ∧
    ((view.adjust_scroll ⟨⟨[[]], ⟨-2 ^ 63, 0⟩⟩, 0, true⟩ 80 3).line_offset = 2 ^ 63 - 1 ∧
      max ((-2 ^ 63 : Int) - ((3 : Int) - 1) / 2) 1 = 1) := by
  decide

/-- C19, the code at the failing input: the event of the terminal's Ctrl+H code,
key code `KeyBackspace`, no modifier, name `Backspace`. `new_key_from_event` returns
the rune key `h` with an empty modifier mask, which the chord `C-h` does not match;
and for every event the modifier mask of the returned key is `ev.Modifiers()`. -/
theorem new_key_from_event_backspace (ToLower : Char → Char) :
    new_key_from_event ToLower ⟨KeyBackspace, Char.ofNat 8, ModNone, "Backspace".toList⟩
      = .ok ⟨ModNone, KeyRune, 'h'⟩ ∧
    new_key "C-h".toList = .ok ⟨ModCtrl, KeyRune, 'h'⟩ ∧
    key.matches ⟨ModCtrl, KeyRune, 'h'⟩ ⟨ModNone, KeyRune, 'h'⟩ = false ∧
    ModNone &&& ModCtrl = 0 ∧
    ∀ ev : EventKey,
      match new_key_from_event ToLower ev with
      | .ok k => k.mod = ev.Modifiers
      | .error _ => True := by
  refine ⟨rfl, by decide, by decide, by decide, ?_⟩
  intro ev
  split
  · rename_i k h
    unfold new_key_from_event at h
    simp only [] at h
    split at h
    · split at h
      · cases h
      · cases h
        rfl
    · cases h
      rfl
  · trivial

end R

namespace Take2

/-! ## The window tree, backward search, modes and the line index -/

/-- C15, what the code computes: a vertical split halves `width`, not `height`. The
first child gets `(x, y, w, half)` and the second `(x, y+half, w, h-half)`, where
`half` is `int(math.Floor(float64(w)/2))` and the sum and the difference are Go's.
For every `w` of absolute value at most `2^53`, and `y+floor(w/2)` and `h-floor(w/2)`
in `[-2^63, 2^63 - 1]`, these are `(x, y, w, floor(w/2))` and `(x, y+floor(w/2), w,
h-floor(w/2))`; for the rectangle `(0, 0, 100, 40)` the heights are `50` and `-10`,
not `20` and `20`. -/
theorem displayWindowTree_vertical :
    (∀ (Left Right : Window) (x y width height : Int),
      displayWindowTree (.WindowVerticalSplit Left Right) x y width height
        = displayWindowTree Left x y width (math_Floor_half width)
          ++ displayWindowTree Right x (int_wrap (y + math_Floor_half width)) width
              (int_wrap (height - math_Floor_half width))) ∧
    (∀ (Left Right : Window) (x y width height : Int),
      -2 ^ 53 ≤ width → width ≤ 2 ^ 53 →
      -2 ^ 63 ≤ y + width / 2 → y + width / 2 < 2 ^ 63 →
      -2 ^ 63 ≤ height - width / 2 → height - width / 2 < 2 ^ 63 →
      displayWindowTree (.WindowVerticalSplit Left Right) x y width height
        = displayWindowTree Left x y width (width / 2)
          ++ displayWindowTree Right x (y + width / 2) width (height - width / 2)) ∧
    displayWindowTree (.WindowVerticalSplit (.WindowNode 1) (.WindowNode 2)) 0 0 100 40
      = [(1, ⟨0, 0, 100, 50⟩), (2, ⟨0, 50, 100, -10⟩)] := by
  refine ⟨fun _ _ _ _ _ _ => rfl, ?_, by decide⟩
  intro Left Right x y width height hw0 hw1 hy0 hy1 hh0 hh1
  show displayWindowTree Left x y width (math_Floor_half width)
      ++ displayWindowTree Right x (int_wrap (y + math_Floor_half width)) width
          (int_wrap (height - math_Floor_half width)) = _
  rw [math_Floor_half_exact width hw0 hw1, int_wrap_eq _ hy0 hy1, int_wrap_eq _ hh0 hh1]

/-- Witness of C15: the general form at the rectangle `(0, 0, 100, 40)`: the children
get `(0, 0, 100, 100/2)` and `(0, 0+100/2, 100, 40-100/2)`. -/
theorem displayWindowTree_vertical_witness :
    displayWindowTree (.WindowVerticalSplit (.WindowNode 1) (.WindowNode 2)) 0 0 100 40
      = displayWindowTree (.WindowNode 1) 0 0 100 (100 / 2)
        ++ displayWindowTree (.WindowNode 2) 0 (0 + 100 / 2) 100 (40 - 100 / 2) :=
  displayWindowTree_vertical.2.1 (.WindowNode 1) (.WindowNode 2) 0 0 100 40
    (by decide) (by decide) (by decide) (by decide) (by decide) (by decide)

/-- C16 as the code has it: for every rectangle `(x, y, w, h)` with `0 <= w <= 2^53`, so that
the conversion of `w` to `float64` is exact, and `x + floor(w/2)` in
`[-2^63, 2^63 - 1]`, a horizontal split hands its left child `(x, y, floor(w/2), h)`
and its right child `(x+floor(w/2), y, w-floor(w/2), h)`; the two widths are not
negative and the right one is the left one or one more. -/
theorem displayWindowTree_horizontal (Left Right : Window) (x y width height : Int)
    (hw : 0 ≤ width) (hw1 : width ≤ 2 ^ 53)
    (hx0 : -2 ^ 63 ≤ x + width / 2) (hx1 : x + width / 2 < 2 ^ 63) :
    displayWindowTree (.WindowHorizontalSplit Left Right) x y width height
        = displayWindowTree Left x y (width / 2) height
          ++ displayWindowTree Right (x + width / 2) y (width - width / 2) height ∧
    0 ≤ width / 2 ∧ width / 2 ≤ width - width / 2 ∧ width - width / 2 ≤ width / 2 + 1 := by
  refine ⟨?_, ?_, ?_, ?_⟩
  · show displayWindowTree Left x y (math_Floor_half width) height
        ++ displayWindowTree Right (int_wrap (x + math_Floor_half width)) y
            (int_wrap (width - math_Floor_half width)) height = _
    rw [math_Floor_half_exact width (by omega) hw1, int_wrap_eq _ hx0 hx1,
      int_wrap_eq (width - width / 2) (by omega) (by omega)]
  · omega
  · omega
  · omega

/-- Witness of C16: width 100 gives widths 50 and 50; width 101 gives 50 and 51. -/
theorem displayWindowTree_horizontal_witness :
    displayWindowTree (.WindowHorizontalSplit (.WindowNode 1) (.WindowNode 2)) 0 0 100 40
        = [(1, ⟨0, 0, 50, 40⟩), (2, ⟨50, 0, 50, 40⟩)] ∧
    displayWindowTree (.WindowHorizontalSplit (.WindowNode 1) (.WindowNode 2)) 0 0 101 40
        = [(1, ⟨0, 0, 50, 40⟩), (2, ⟨50, 0, 51, 40⟩)] := by
  have h1 := (displayWindowTree_horizontal (.WindowNode 1) (.WindowNode 2) 0 0 100 40
    (by decide) (by decide) (by decide) (by decide)).1
  have h2 := (displayWindowTree_horizontal (.WindowNode 1) (.WindowNode 2) 0 0 101 40
    (by decide) (by decide) (by decide) (by decide)).1
  rw [h1, h2]
  exact ⟨by decide, by decide⟩

/-- C16 as stated fails, at two inputs. (1) The rectangle `(0, 0, 2^53 + 3, 40)`:
`float64(w)` is `2^53 + 4`, the value with 53 significant bits nearest to `w`, so
the left child gets the width `2^52 + 2` and the right child `2^52 + 1`, at
`x = 2^52 + 2`; `floor(w/2)` is `2^52 + 1`, and the left child is the wider one.
(2) The rectangle `(2^63 - 1, 0, 2, 40)`, at the greatest `int` `x`: Go's sum
`x + 1` wraps, and the right child is placed at `-2^63`; `x + floor(w/2)` is
`2^63`. -/
theorem displayWindowTree_horizontal_rounds_or_wraps :
    (displayWindowTree (.WindowHorizontalSplit (.WindowNode 1) (.WindowNode 2))
          0 0 (2 ^ 53 + 3) 40
        = [(1, ⟨0, 0, 2 ^ 52 + 2, 40⟩), (2, ⟨2 ^ 52 + 2, 0, 2 ^ 52 + 1, 40⟩)] ∧
      ((2 ^ 53 + 3 : Int) / 2 = 2 ^ 52 + 1) ∧
      float64 (2 ^ 53 + 3) = 2 ^ 53 + 4) ∧
    (displayWindowTree (.WindowHorizontalSplit (.WindowNode 1) (.WindowNode 2))
          (2 ^ 63 - 1) 0 2 40
        = [(1, ⟨2 ^ 63 - 1, 0, 1, 40⟩), (2, ⟨-2 ^ 63, 0, 1, 40⟩)] ∧
      ((2 ^ 63 - 1 : Int) + 2 / 2 = 2 ^ 63)) := by
  decide

/-- C17, the code at the failing input: text `"abc"`, point `2`, needle `"ab"`. The
needle occurs at offset `0` and ends at offset `1 <= Point`, yet
`FindFirstInBackward` leaves the point at `2`: its loop stops before offset `0`. -/
theorem Buffer.FindFirstInBackward_misses_offset_zero :
    ((NewBuffer "abc".toList).PointMove 3).Point = 2 ∧
    (∃ b', ((NewBuffer "abc".toList).PointMove 3).FindFirstInBackward "ab".toList = .ok b' ∧
      b'.Point = 2 ∧ b'.String = "abc".toList) ∧
    ("abc".toList.drop 0).take 2 = "ab".toList := by
  refine ⟨by decide, ⟨_, rfl, by decide, by decide⟩, by decide⟩

theorem Buffer.ModeAdd.loop_eq (m : Mode) :
    ∀ (currentModes modes : List Mode),
      Buffer.ModeAdd.loop m currentModes modes
        = modes ++
          (if m.Kind = ModeKind.ModeEditing ∨ m.Kind = ModeKind.ModeMajor then
            currentModes.filter (fun mode => decide (mode.Kind ≠ m.Kind))
          else currentModes) := by
  intro currentModes
  induction currentModes with
  | nil => intro modes; simp [Buffer.ModeAdd.loop]
  | cons mode rest ih =>
    intro modes
    unfold Buffer.ModeAdd.loop
    cases hm : m.Kind <;> cases hk : mode.Kind <;> simp [ih, hm, hk, List.filter_cons]

theorem Buffer.ModeAdd_countP (k : ModeKind) (m : Mode) (l : List Mode)
    (h : List.countP (fun mode => decide (mode.Kind = k)) l ≤ 1)
    (hk : k = ModeKind.ModeEditing ∨ k = ModeKind.ModeMajor) :
    List.countP (fun mode => decide (mode.Kind = k))
      ((if m.Kind = ModeKind.ModeEditing ∨ m.Kind = ModeKind.ModeMajor then
            l.filter (fun mode => decide (mode.Kind ≠ m.Kind))
          else l) ++ [m]) ≤ 1 := by
  by_cases hmk : m.Kind = k
  · have hcond : m.Kind = ModeKind.ModeEditing ∨ m.Kind = ModeKind.ModeMajor := by
      rw [hmk]; exact hk
    rw [if_pos hcond, List.countP_append, List.countP_filter]
    have h0 : List.countP (fun a => (decide (a.Kind = k)) && (decide (a.Kind ≠ m.Kind))) l
        = 0 := by
      rw [List.countP_eq_zero]
      intro a _
      simp [hmk]
    rw [h0]
    simp [List.countP_cons, hmk]
  · have hle : List.countP (fun mode => decide (mode.Kind = k))
        (if m.Kind = ModeKind.ModeEditing ∨ m.Kind = ModeKind.ModeMajor then
            l.filter (fun mode => decide (mode.Kind ≠ m.Kind))
          else l) ≤ List.countP (fun mode => decide (mode.Kind = k)) l := by
      split
      · exact List.Sublist.countP_le _ (List.filter_sublist l)
      · exact le_refl _
    rw [List.countP_append]
    have h1 : List.countP (fun mode => decide (mode.Kind = k)) [m] = 0 := by
      simp [List.countP_cons, hmk]
    omega

/-- C18: for every buffer and every mode `m`, `ModeAdd(m)` changes only the list of
modes, which becomes the old list without the modes of `m`'s kind when that kind is
Editing or Major (the others in their order), followed by `m`; for a Minor `m` it is
the old list followed by `m`. A list with at most one Editing and at most one Major
mode still has at most one of each afterwards. -/
theorem Buffer.ModeAdd_spec (b : Buffer) (m : Mode) :
    b.ModeAdd m
        = { b with Modes :=
              (if m.Kind = ModeKind.ModeEditing ∨ m.Kind = ModeKind.ModeMajor then
                b.Modes.filter (fun mode => decide (mode.Kind ≠ m.Kind))
              else b.Modes) ++ [m] } ∧
      (m.Kind = ModeKind.ModeMinor → (b.ModeAdd m).Modes = b.Modes ++ [m]) ∧
      (List.countP (fun mode => decide (mode.Kind = ModeKind.ModeEditing)) b.Modes ≤ 1 →
        List.countP (fun mode => decide (mode.Kind = ModeKind.ModeMajor)) b.Modes ≤ 1 →
        List.countP (fun mode => decide (mode.Kind = ModeKind.ModeEditing))
            (b.ModeAdd m).Modes ≤ 1 ∧
          List.countP (fun mode => decide (mode.Kind = ModeKind.ModeMajor))
            (b.ModeAdd m).Modes ≤ 1) := by
  have key : b.ModeAdd m
        = { b with Modes :=
              (if m.Kind = ModeKind.ModeEditing ∨ m.Kind = ModeKind.ModeMajor then
                b.Modes.filter (fun mode => decide (mode.Kind ≠ m.Kind))
              else b.Modes) ++ [m] } := by
    unfold Buffer.ModeAdd
    simp only [Buffer.ModeAdd.loop_eq, List.nil_append]
  refine ⟨key, ?_, ?_⟩
  · intro hminor
    rw [key]
    simp [hminor]
  · intro hE hM
    rw [key]
    exact ⟨Buffer.ModeAdd_countP _ m b.Modes hE (Or.inl rfl),
      Buffer.ModeAdd_countP _ m b.Modes hM (Or.inr rfl)⟩

/-- Witness of C18: the modes normal (Editing), go (Major) and lint (Minor); adding
insert (Editing) gives go, lint, insert, with one Editing and one Major mode. -/
theorem Buffer.ModeAdd_spec_witness :
    (Buffer.ModeAdd
        { (NewBuffer []) with Modes := [⟨"normal", .ModeEditing, []⟩, ⟨"go", .ModeMajor, []⟩,
            ⟨"lint", .ModeMinor, []⟩] }
        ⟨"insert", .ModeEditing, []⟩).Modes
      = [⟨"go", .ModeMajor, []⟩, ⟨"lint", .ModeMinor, []⟩, ⟨"insert", .ModeEditing, []⟩] ∧
    List.countP (fun mode => decide (mode.Kind = ModeKind.ModeEditing))
        (Buffer.ModeAdd
          { (NewBuffer []) with Modes := [⟨"normal", .ModeEditing, []⟩,
              ⟨"go", .ModeMajor, []⟩, ⟨"lint", .ModeMinor, []⟩] }
          ⟨"insert", .ModeEditing, []⟩).Modes ≤ 1 ∧
      List.countP (fun mode => decide (mode.Kind = ModeKind.ModeMajor))
        (Buffer.ModeAdd
          { (NewBuffer []) with Modes := [⟨"normal", .ModeEditing, []⟩,
              ⟨"go", .ModeMajor, []⟩, ⟨"lint", .ModeMinor, []⟩] }
          ⟨"insert", .ModeEditing, []⟩).Modes ≤ 1 :=
  ⟨by decide,
    (Buffer.ModeAdd_spec
      { (NewBuffer []) with Modes := [⟨"normal", .ModeEditing, []⟩, ⟨"go", .ModeMajor, []⟩,
          ⟨"lint", .ModeMinor, []⟩] }
      ⟨"insert", .ModeEditing, []⟩).2.2 (by decide) (by decide)⟩

theorem Buffer.CacheLines_LinesInStep (b : Buffer) : b.CacheLines.LinesInStep := by
  unfold Buffer.LinesInStep
  have hs : b.CacheLines.String = b.String := by
    rw [Buffer.String_eq, Buffer.String_eq, Buffer.CacheLines_r]
  rw [hs]
  exact ⟨rfl, rfl⟩

theorem Buffer.PointMove_LinesInStep (b : Buffer) (amount : Int) (h : b.LinesInStep) :
    (b.PointMove amount).LinesInStep := by
  rw [Buffer.PointMove_eq b amount]
  exact h

/-- C20: the line index is in step with the text after `NewBuffer`; from a buffer
with the point in range and the index in step, `Insert`, `Delete` (`count >= 0`)
and `Backspace` return a buffer whose index is in step again; and in step means
`Lines` is the text split on line feeds, `LineCount = len(Lines) = 1 + (number of
line feeds in the text) >= 1`, and joining `Lines` with line feeds gives the text. -/
theorem Buffer.LinesInStep_invariant :
    (∀ text, (NewBuffer text).LinesInStep) ∧
    (∀ b : Buffer, b.PointInRange → b.LinesInStep →
      (∀ text, ∃ b', b.Insert text = .ok b' ∧ b'.LinesInStep) ∧
      (∀ count, 0 ≤ count → ∃ b', b.Delete count = .ok b' ∧ b'.LinesInStep) ∧
      (∃ b', b.Backspace = .ok b' ∧ b'.LinesInStep)) ∧
    (∀ b : Buffer, b.LinesInStep →
      b.Lines = strings_Split b.String '\n' ∧
      b.LineCount = (b.Lines.length : Int) ∧
      b.LineCount = 1 + ((b.String.count '\n' : Nat) : Int) ∧
      1 ≤ b.LineCount ∧
      strings_Join b.Lines ['\n'] = b.String) := by
  refine ⟨?_, ?_, ?_⟩
  · intro text
    exact Buffer.CacheLines_LinesInStep _
  · intro b hp hl
    have hdel : ∀ count, 0 ≤ count → ∃ b', b.Delete count = .ok b' ∧ b'.LinesInStep := by
      intro count hc
      unfold Buffer.Delete
      by_cases hg : b.Point < b.r.Len - 1
      · rw [if_pos hg]
        have hd := Rope.Delete_ok b.r (b.Point + 1) count (by have := hp.1; omega)
          (by omega) hc
        simp only [hd]
        exact ⟨_, rfl, Buffer.CacheLines_LinesInStep _⟩
      · rw [if_neg hg]
        exact ⟨b, rfl, hl⟩
    refine ⟨?_, hdel, ?_⟩
    · intro text
      unfold Buffer.Insert
      have hins := Rope.Insert_ok b.r (b.Point + 1) text (by have := hp.1; omega)
        (by have := hp.2; omega)
      simp only [hins]
      exact ⟨_, rfl, Buffer.PointMove_LinesInStep _ _ (Buffer.CacheLines_LinesInStep _)⟩
    · unfold Buffer.Backspace
      by_cases hpt : b.Point > -1
      · rw [if_pos hpt]
        obtain ⟨b1, hb1, hl1⟩ := hdel 1 (by decide)
        rw [hb1]
        exact ⟨_, rfl, Buffer.PointMove_LinesInStep _ _ hl1⟩
      · rw [if_neg hpt]
        exact ⟨b, rfl, hl⟩
  · intro b hl
    obtain ⟨h1, h2⟩ := hl
    have hlen : b.Lines.length = 1 + b.String.count '\n' := by
      rw [h1]; exact strings_Split_length '\n' _
    refine ⟨h1, h2, ?_, ?_, ?_⟩
    · rw [h2, hlen]; push_cast; rfl
    · rw [h2, hlen]; push_cast; omega
    · rw [h1]; exact strings_Join_Split '\n' _

/-- Witness of C20: the buffer of `"hello world\nfoo bar"` has the two lines
`"hello world"` and `"foo bar"`, and its index stays in step under the three
mutations. -/
theorem Buffer.LinesInStep_invariant_witness :
    (NewBuffer "hello world\nfoo bar".toList).Lines
        = ["hello world".toList, "foo bar".toList] ∧
    (NewBuffer "hello world\nfoo bar".toList).LineCount = 2 ∧
    ((∀ text, ∃ b', (NewBuffer "hello world\nfoo bar".toList).Insert text = .ok b' ∧
        b'.LinesInStep) ∧
      (∀ count, 0 ≤ count →
        ∃ b', (NewBuffer "hello world\nfoo bar".toList).Delete count = .ok b' ∧
          b'.LinesInStep) ∧
      (∃ b', (NewBuffer "hello world\nfoo bar".toList).Backspace = .ok b' ∧
        b'.LinesInStep)) :=
  ⟨by decide, by decide,
    Buffer.LinesInStep_invariant.2.1 _ (by decide) (Buffer.LinesInStep_invariant.1 _)⟩

end Take2

namespace R

/-! ## A word-forward move that fails -/

theorem buffer.char_under_cursor_newline_of_ge (b : buffer) (line : List Char)
    (hl : index b.data b.cursor.line = .ok line) (hge : (line.length : Int) ≤ b.cursor.char) :
    b.char_under_cursor = .ok '\n' := by
  unfold buffer.char_under_cursor
  simp only [hl]
  rw [if_neg (by omega)]

theorem index_mem {α : Type} (s : List α) (i : Int) (a : α) (h : index s i = .ok a) :
    0 ≤ i ∧ i < s.length ∧ a ∈ s := by
  unfold index at h
  split at h
  · cases h
  · rename_i hi
    split at h
    · rename_i a' hget
      cases h
      have hlt := (List.getElem?_eq_some.mp hget).1
      exact ⟨by omega, by omega, List.getElem?_mem hget⟩
    · cases h

theorem buffer.char_under_cursor_lt (b : buffer) (line : List Char) (c : Char)
    (hl : index b.data b.cursor.line = .ok line) (hc : b.char_under_cursor = .ok c)
    (hne : c ≠ '\n') : b.cursor.char < line.length := by
  by_contra hge
  have := buffer.char_under_cursor_newline_of_ge b line hl (by omega)
  rw [this] at hc
  cases hc
  exact hne rfl

theorem buffer.char_under_cursor_ge (b : buffer) (line : List Char)
    (hl : index b.data b.cursor.line = .ok line) (hc : b.char_under_cursor = .ok '\n')
    (hno : '\n' ∉ line) : (line.length : Int) ≤ b.cursor.char := by
  by_contra hlt
  unfold buffer.char_under_cursor at hc
  simp only [hl] at hc
  rw [if_pos (by omega)] at hc
  exact hno (index_mem line _ _ hc).2.2

theorem buffer.move_word_forward.skip_word_inv (u : unicode) :
    ∀ (fuel : Nat) (b : buffer) (c : Char) (b' : buffer) (c' : Char),
      buffer.move_word_forward.skip_word u fuel b c = .ok (b', c') →
      b.char_under_cursor = .ok c →
      b'.data = b.data ∧ b'.cursor.line = b.cursor.line ∧
        b.cursor.char ≤ b'.cursor.char ∧ b'.char_under_cursor = .ok c' ∧
        ∀ line, index b.data b.cursor.line = .ok line →
          b.cursor.char ≤ line.length → b'.cursor.char ≤ line.length := by
  intro fuel
  induction fuel with
  | zero =>
    intro b c b' c' h _
    unfold buffer.move_word_forward.skip_word at h
    cases h
  | succ n ih =>
    intro b c b' c' h hc
    unfold buffer.move_word_forward.skip_word at h
    split at h
    · rename_i hcond
      simp only [] at h
      split at h
      · cases h
      · rename_i c2 hc2
        obtain ⟨h1, h2, h3, h4, h5⟩ := ih _ _ _ _ h hc2
        refine ⟨h1, h2, ?_, h4, ?_⟩
        · have : b.cursor.char + 1 ≤ b'.cursor.char := h3
          omega
        · intro line hl hle
          have hne : c ≠ '\n' := by
            simp only [Bool.and_eq_true, bne_iff_ne, ne_eq] at hcond
            exact hcond.2
          have hlt := buffer.char_under_cursor_lt b line c hl hc hne
          exact h5 line hl (by show b.cursor.char + 1 ≤ _; omega)
    · cases h
      exact ⟨rfl, rfl, le_refl _, hc, fun _ _ hle => hle⟩

theorem buffer.move_word_forward.outer_false (u : unicode) (fuel : Nat) :
    ∀ (n : Nat) (b b' : buffer),
      buffer.move_word_forward.outer u fuel n b = .ok (b', false) →
      b'.data = b.data ∧ b'.cursor.line = b.cursor.line ∧
        b.cursor.char ≤ b'.cursor.char ∧ b'.last_line = true ∧
        b'.char_under_cursor = .ok '\n' ∧
        ∀ line, index b.data b.cursor.line = .ok line →
          b.cursor.char ≤ line.length → b'.cursor.char ≤ line.length := by
  intro n
  induction n with
  | zero =>
    intro b b' h
    unfold buffer.move_word_forward.outer at h
    cases h
  | succ n ih =>
    intro b b' h
    unfold buffer.move_word_forward.outer at h
    split at h
    · cases h
    · rename_i c hc
      split at h
      · rename_i hnl
        split at h
        · rename_i hlast
          cases h
          have hcn : c = '\n' := by simpa using hnl
          rw [hcn] at hc
          exact ⟨rfl, rfl, le_refl _, hlast, hc, fun _ _ hle => hle⟩
        · cases h
      · split at h
        · cases h
        · rename_i b2 c2 hskip
          obtain ⟨s1, s2, s3, s4, s5⟩ :=
            buffer.move_word_forward.skip_word_inv u fuel b c b2 c2 hskip hc
          split at h
          · obtain ⟨o1, o2, o3, o4, o5, o6⟩ := ih b2 b' h
            refine ⟨o1.trans s1, o2.trans s2, le_trans s3 o3, o4, o5, ?_⟩
            intro line hl hle
            exact o6 line (by rw [s1, s2]; exact hl) (s5 line hl hle)
          · cases h

theorem buffer.move_word_forward_false_outer (u : unicode) (fuel : Nat) (b b' : buffer)
    (h : buffer.move_word_forward u fuel b = .ok (b', false)) :
    buffer.move_word_forward.outer u fuel fuel b = .ok (b', false) := by
  unfold buffer.move_word_forward at h
  split at h
  · cases h
  · rename_i b1 hout
    cases h
    exact hout
  · split at h
    · cases h
    · split at h
      · cases h
      · cases h

/-- C11 as the code has it: whenever `move_word_forward` returns false, `data` is
unchanged, the cursor is on the line it started on, that line is the last one, the
column is not smaller than before and the rune under the cursor reads as the line
end; when the starting column lies within the line and the line holds no line feed,
the column afterwards is the length of the line. A failed move never leaves the
line, but it can advance the cursor to the end of it. -/
theorem buffer.move_word_forward_false_spec (u : unicode) (fuel : Nat) (b b' : buffer)
    (h : buffer.move_word_forward u fuel b = .ok (b', false)) :
    b'.data = b.data ∧ b'.cursor.line = b.cursor.line ∧ b'.last_line = true ∧
      b.cursor.char ≤ b'.cursor.char ∧ b'.char_under_cursor = .ok '\n' ∧
      ∀ line, index b.data b.cursor.line = .ok line →
        b.cursor.char ≤ line.length → '\n' ∉ line → b'.cursor.char = line.length := by
  obtain ⟨o1, o2, o3, o4, o5, o6⟩ :=
    buffer.move_word_forward.outer_false u fuel fuel b b'
      (buffer.move_word_forward_false_outer u fuel b b' h)
  refine ⟨o1, o2, o4, o3, o5, ?_⟩
  intro line hl hle hno
  have hge := buffer.char_under_cursor_ge b' line (by rw [o1, o2]; exact hl) o5 hno
  have hle' := o6 line hl hle
  omega

/-- Witness of C11: the lines `"foo"` and `"hello"` with the cursor on line 1, column
2. The move returns false and leaves the cursor on line 1 at column 5, the end of
the line. -/
theorem buffer.move_word_forward_false_spec_witness :
    buffer.move_word_forward unicode.ascii 6 ⟨["foo".toList, "hello".toList], ⟨1, 2⟩⟩
        = .ok (⟨["foo".toList, "hello".toList], ⟨1, 5⟩⟩, false) ∧
      (5 : Int) = ("hello".toList.length : Int) := by
  have h : buffer.move_word_forward unicode.ascii 6
      ⟨["foo".toList, "hello".toList], ⟨1, 2⟩⟩
        = .ok (⟨["foo".toList, "hello".toList], ⟨1, 5⟩⟩, false) := by decide
  have hs := buffer.move_word_forward_false_spec unicode.ascii 6 _ _ h
  exact ⟨h, hs.2.2.2.2.2 "hello".toList (by decide) (by decide) (by decide)⟩

/-- C11 as stated fails: on the single line `"hello"` with the cursor at column 0,
`move_word_forward` returns false and the cursor is at column 5 afterwards. -/
theorem buffer.move_word_forward_false_moves_cursor :
    buffer.move_word_forward unicode.ascii 6 ⟨["hello".toList], ⟨0, 0⟩⟩
      = .ok (⟨["hello".toList], ⟨0, 5⟩⟩, false) := by
  decide

end R

namespace Take2

/-! ## Leaves of the window tree -/

/-- C24, the code at the failing input: a vertical split of two leaves drawn in the
root rectangle `(0, 0, 100, 40)`. The first leaf gets height 50 and reaches below
the root (`0 + 50 > 0 + 40`); the second leaf gets the negative height `-10`. A
vertical split of a rectangle of width 100 and height 200 gives the heights 50 and
150: the leaves stay inside the root there, but the split is still made at
`floor(width/2)`. -/
theorem displayWindowTree_leaf_outside_root :
    displayWindowTree (.WindowVerticalSplit (.WindowNode 1) (.WindowNode 2)) 0 0 100 40
      = [(1, ⟨0, 0, 100, 50⟩), (2, ⟨0, 50, 100, -10⟩)] ∧
    ¬ ((0 : Int) + 50 ≤ 0 + 40) ∧ ¬ ((0 : Int) ≤ -10) ∧
    displayWindowTree (.WindowVerticalSplit (.WindowNode 1) (.WindowNode 2)) 0 0 100 200
      = [(1, ⟨0, 0, 100, 50⟩), (2, ⟨0, 50, 100, 150⟩)] := by
  decide

end Take2

namespace R

/-! ## Parsing odd chords, drawn rows and stepping through matches -/

/-- C27, the code at the failing inputs: `new_key_list` panics on `"-"`, on `"C--"`
and on `"C-"`. Splitting such a chord on `-` leaves an empty last part, and
`[]rune(last_part)[0]` indexes it. A chord with a non-empty last part, such as
`"C-u"`, is parsed. -/
theorem new_key_list_dash_panics :
    new_key_list "-".toList = .error .indexOutOfRange ∧
    new_key_list "C--".toList = .error .indexOutOfRange ∧
    new_key_list "C-".toList = .error .indexOutOfRange ∧
    strings_Split "-".toList '-' = [[], []] ∧
    new_key_list "C-u".toList = .ok ⟨[⟨ModCtrl, KeyRune, 'u'⟩]⟩ := by
  decide

/-- C22, the code at two failing inputs, a buffer of 100 lines drawn with `h = 20`
from offset 0 (rows `y .. y+18` hold text, row `y+19` the status bar). With the
cursor on line 19, `adjust_scroll` keeps offset 0 and `render_view` draws lines 0 to
18; with the cursor on line 50 the offset becomes 31 and lines 31 to 49 are drawn.
In both cases the cursor line is `line_offset + h - 1` and is not drawn. -/
theorem render_view_cursor_on_status_row :
    (render_view ⟨⟨List.replicate 100 [], ⟨19, 0⟩⟩, 0, false⟩ 0 0 80 20).1.line_offset = 0 ∧
    (render_view ⟨⟨List.replicate 100 [], ⟨19, 0⟩⟩, 0, false⟩ 0 0 80 20).2.map Prod.fst
      = List.map Int.ofNat (List.range 19) ∧
    ¬ ((19 : Int) ≤ 0 + 20 - 2) ∧
    (render_view ⟨⟨List.replicate 100 [], ⟨50, 0⟩⟩, 0, false⟩ 0 0 80 20).1.line_offset = 31 ∧
    (50 : Int) ∉
      (render_view ⟨⟨List.replicate 100 [], ⟨50, 0⟩⟩, 0, false⟩ 0 0 80 20).2.map Prod.fst ∧
    ¬ ((50 : Int) ≤ 31 + 20 - 2) := by
  decide

theorem search_next_ok (s : search_state) (b : buffer)
    (h0 : 0 ≤ s.last_search_index)
    (h1 : s.last_search_index < (s.last_search_results.length : Int))
    (hd : b.data ≠ []) :
    ∃ loc b', index s.last_search_results
          ((s.last_search_index + 1) % (s.last_search_results.length : Int)) = .ok loc ∧
      b.move_to loc.char loc.line = .ok b' ∧ b'.data = b.data ∧
      search_next s b
        = .ok ({ s with
                  last_search_index :=
                    (s.last_search_index + 1) % (s.last_search_results.length : Int),
                  last_search_highlight := true }, b') := by
  have hn : ¬ s.last_search_results.length = 0 := by omega
  by_cases hw : s.last_search_index + 1 = (s.last_search_results.length : Int)
  · have hj : (s.last_search_index + 1) % (s.last_search_results.length : Int) = 0 := by
      rw [hw, Int.emod_self]
    rw [hj]
    obtain ⟨loc, hloc, _⟩ := index_ok s.last_search_results 0 (le_refl _) (by omega)
    obtain ⟨b', _, hmv, hdata, _⟩ := buffer.move_to_ok b loc.char loc.line hd
    refine ⟨loc, b', hloc, hmv, hdata, ?_⟩
    unfold search_next
    simp only [hn, if_false, hw, if_true, hloc, hmv]
  · have hj : (s.last_search_index + 1) % (s.last_search_results.length : Int)
        = s.last_search_index + 1 := Int.emod_eq_of_lt (by omega) (by omega)
    rw [hj]
    obtain ⟨loc, hloc, _⟩ := index_ok s.last_search_results (s.last_search_index + 1)
      (by omega) (by omega)
    obtain ⟨b', _, hmv, hdata, _⟩ := buffer.move_to_ok b loc.char loc.line hd
    refine ⟨loc, b', hloc, hmv, hdata, ?_⟩
    unfold search_next
    simp only [hn, if_false, hw, hloc, hmv]

theorem search_prev_ok (s : search_state) (b : buffer)
    (h0 : 0 ≤ s.last_search_index)
    (h1 : s.last_search_index < (s.last_search_results.length : Int))
    (hd : b.data ≠ []) :
    ∃ loc b', index s.last_search_results
          ((s.last_search_index - 1) % (s.last_search_results.length : Int)) = .ok loc ∧
      b.move_to loc.char loc.line = .ok b' ∧ b'.data = b.data ∧
      search_prev s b
        = .ok ({ s with
                  last_search_index :=
                    (s.last_search_index - 1) % (s.last_search_results.length : Int),
                  last_search_highlight := true }, b') := by
  have hn : ¬ s.last_search_results.length = 0 := by omega
  by_cases hw : s.last_search_index = 0
  · have hj : (s.last_search_index - 1) % (s.last_search_results.length : Int)
        = (s.last_search_results.length : Int) - 1 := by
      rw [hw, show (0 : Int) - 1
          = ((s.last_search_results.length : Int) - 1)
            + (-1) * (s.last_search_results.length : Int) by ring,
        Int.add_mul_emod_self]
      exact Int.emod_eq_of_lt (by omega) (by omega)
    rw [hj]
    obtain ⟨loc, hloc, _⟩ := index_ok s.last_search_results
      ((s.last_search_results.length : Int) - 1) (by omega) (by omega)
    obtain ⟨b', _, hmv, hdata, _⟩ := buffer.move_to_ok b loc.char loc.line hd
    refine ⟨loc, b', hloc, hmv, hdata, ?_⟩
    unfold search_prev
    simp only [hn, if_false, hw, if_true, hloc, hmv]
  · have hj : (s.last_search_index - 1) % (s.last_search_results.length : Int)
        = s.last_search_index - 1 := Int.emod_eq_of_lt (by omega) (by omega)
    rw [hj]
    obtain ⟨loc, hloc, _⟩ := index_ok s.last_search_results (s.last_search_index - 1)
      (by omega) (by omega)
    obtain ⟨b', _, hmv, hdata, _⟩ := buffer.move_to_ok b loc.char loc.line hd
    refine ⟨loc, b', hloc, hmv, hdata, ?_⟩
    unfold search_prev
    simp only [hn, if_false, hw, hloc, hmv]

theorem search_next.times_ok :
    ∀ (n : Nat) (s : search_state) (b : buffer),
      0 ≤ s.last_search_index →
      s.last_search_index < (s.last_search_results.length : Int) →
      b.data ≠ [] →
      ∃ s' b', search_next.times n s b = .ok (s', b') ∧
        s'.last_search_results = s.last_search_results ∧
        s'.last_search_index
          = (s.last_search_index + (n : Int)) % (s.last_search_results.length : Int) := by
  intro n
  induction n with
  | zero =>
    intro s b h0 h1 _
    refine ⟨s, b, rfl, rfl, ?_⟩
    simp only [Nat.cast_zero, Int.add_zero]
    exact (Int.emod_eq_of_lt h0 h1).symm
  | succ n ih =>
    intro s b h0 h1 hd
    obtain ⟨loc, b1, _, _, hdata, hnext⟩ := search_next_ok s b h0 h1 hd
    have hpos : (0 : Int) < (s.last_search_results.length : Int) := by omega
    obtain ⟨s', b', hrun, hres, hidx⟩ := ih
      { s with
          last_search_index :=
            (s.last_search_index + 1) % (s.last_search_results.length : Int),
          last_search_highlight := true } b1
      (Int.emod_nonneg _ (by omega)) (Int.emod_lt_of_pos _ hpos) (by rw [hdata]; exact hd)
    refine ⟨s', b', ?_, hres, ?_⟩
    · unfold search_next.times
      simp only [hnext]
      exact hrun
    · rw [hidx]
      show ((s.last_search_index + 1) % (s.last_search_results.length : Int) + (n : Int))
          % (s.last_search_results.length : Int) = _
      rw [Int.emod_add_emod]
      congr 1
      push_cast
      ring


theorem emod_succ_pred (i n : Int) (h0 : 0 ≤ i) (h1 : i < n) :
    ((i + 1) % n - 1) % n = i ∧ ((i - 1) % n + 1) % n = i := by
  constructor
  · rw [Int.sub_eq_add_neg, Int.emod_add_emod]
    rw [show i + 1 + -1 = i by ring]
    exact Int.emod_eq_of_lt h0 h1
  · rw [Int.emod_add_emod]
    rw [show i - 1 + 1 = i by ring]
    exact Int.emod_eq_of_lt h0 h1

/-- C21: for every non-empty list of `n` matches, every index `i` with `0 <= i < n`
and every buffer with at least one line, `search_next` returns with the index
`(i+1) mod n` and `search_prev` with the index `(i-1) mod n`, the cursor being where
`move_to` puts it for the match at the new index; `search_prev` after `search_next`
and `search_next` after `search_prev` give the index `i` back, and so do `n` calls
of `search_next`. With an empty list each of the two returns the buffer and the
index as they were. -/
theorem search_next_prev_spec (s : search_state) (b : buffer)
    (h0 : 0 ≤ s.last_search_index)
    (h1 : s.last_search_index < (s.last_search_results.length : Int))
    (hd : b.data ≠ []) :
    (∃ loc b', index s.last_search_results
          ((s.last_search_index + 1) % (s.last_search_results.length : Int)) = .ok loc ∧
        b.move_to loc.char loc.line = .ok b' ∧
        search_next s b
          = .ok ({ s with
                    last_search_index :=
                      (s.last_search_index + 1) % (s.last_search_results.length : Int),
                    last_search_highlight := true }, b')) ∧
    (∃ loc b', index s.last_search_results
          ((s.last_search_index - 1) % (s.last_search_results.length : Int)) = .ok loc ∧
        b.move_to loc.char loc.line = .ok b' ∧
        search_prev s b
          = .ok ({ s with
                    last_search_index :=
                      (s.last_search_index - 1) % (s.last_search_results.length : Int),
                    last_search_highlight := true }, b')) ∧
    (∃ s1 b1 s2 b2, search_next s b = .ok (s1, b1) ∧ search_prev s1 b1 = .ok (s2, b2) ∧
        s2.last_search_index = s.last_search_index) ∧
    (∃ s1 b1 s2 b2, search_prev s b = .ok (s1, b1) ∧ search_next s1 b1 = .ok (s2, b2) ∧
        s2.last_search_index = s.last_search_index) ∧
    (∃ s' b', search_next.times s.last_search_results.length s b = .ok (s', b') ∧
        s'.last_search_index = s.last_search_index) ∧
    (∀ (s0 : search_state) (b0 : buffer), s0.last_search_results = [] →
        (∃ s', search_next s0 b0 = .ok (s', b0) ∧
          s'.last_search_index = s0.last_search_index) ∧
        (∃ s', search_prev s0 b0 = .ok (s', b0) ∧
          s'.last_search_index = s0.last_search_index)) := by
  have hpos : (0 : Int) < (s.last_search_results.length : Int) := by omega
  obtain ⟨locn, bn, hlocn, hmvn, hdn, hnext⟩ := search_next_ok s b h0 h1 hd
  obtain ⟨locp, bp, hlocp, hmvp, hdp, hprev⟩ := search_prev_ok s b h0 h1 hd
  have hcyc := emod_succ_pred s.last_search_index _ h0 h1
  refine ⟨⟨locn, bn, hlocn, hmvn, hnext⟩, ⟨locp, bp, hlocp, hmvp, hprev⟩, ?_, ?_, ?_, ?_⟩
  · obtain ⟨_, b2, _, _, _, hp2⟩ := search_prev_ok
      { s with
          last_search_index :=
            (s.last_search_index + 1) % (s.last_search_results.length : Int),
          last_search_highlight := true } bn
      (Int.emod_nonneg _ (by omega)) (Int.emod_lt_of_pos _ hpos) (by rw [hdn]; exact hd)
    exact ⟨_, bn, _, b2, hnext, hp2, hcyc.1⟩
  · obtain ⟨_, b2, _, _, _, hn2⟩ := search_next_ok
      { s with
          last_search_index :=
            (s.last_search_index - 1) % (s.last_search_results.length : Int),
          last_search_highlight := true } bp
      (Int.emod_nonneg _ (by omega)) (Int.emod_lt_of_pos _ hpos) (by rw [hdp]; exact hd)
    exact ⟨_, bp, _, b2, hprev, hn2, hcyc.2⟩
  · obtain ⟨s', b', hrun, _, hidx⟩ :=
      search_next.times_ok s.last_search_results.length s b h0 h1 hd
    refine ⟨s', b', hrun, ?_⟩
    rw [hidx, Int.add_emod_self]
    exact Int.emod_eq_of_lt h0 h1
  · intro s0 b0 hempty
    have hlen : s0.last_search_results.length = 0 := by rw [hempty]; rfl
    refine ⟨⟨{ s0 with editor_message := "No search result.".toList }, ?_, rfl⟩,
      ⟨{ s0 with editor_message := "No search result.".toList }, ?_, rfl⟩⟩
    · unfold search_next
      rw [if_pos hlen]
    · unfold search_prev
      rw [if_pos hlen]

/-- Witness of C21: three matches in a buffer of two lines, the index on the last
match (2): `search_next` wraps to match 0 at line 0, column 1; `search_prev` steps
to match 1 at line 1, column 0. -/
theorem search_next_prev_spec_witness :
    search_next ⟨2, false, [⟨0, 1⟩, ⟨1, 0⟩, ⟨1, 2⟩], []⟩ ⟨["abc".toList, "bcb".toList], ⟨1, 2⟩⟩
      = .ok (⟨0, true, [⟨0, 1⟩, ⟨1, 0⟩, ⟨1, 2⟩], []⟩,
          ⟨["abc".toList, "bcb".toList], ⟨0, 1⟩⟩) ∧
    search_prev ⟨2, false, [⟨0, 1⟩, ⟨1, 0⟩, ⟨1, 2⟩], []⟩ ⟨["abc".toList, "bcb".toList], ⟨1, 2⟩⟩
      = .ok (⟨1, true, [⟨0, 1⟩, ⟨1, 0⟩, ⟨1, 2⟩], []⟩,
          ⟨["abc".toList, "bcb".toList], ⟨1, 0⟩⟩) ∧
    ∃ s' b', search_next.times 3 ⟨2, false, [⟨0, 1⟩, ⟨1, 0⟩, ⟨1, 2⟩], []⟩
        ⟨["abc".toList, "bcb".toList], ⟨1, 2⟩⟩ = .ok (s', b') ∧
      s'.last_search_index = 2 := by
  have h := search_next_prev_spec ⟨2, false, [⟨0, 1⟩, ⟨1, 0⟩, ⟨1, 2⟩], []⟩
    ⟨["abc".toList, "bcb".toList], ⟨1, 2⟩⟩ (by decide) (by decide) (by decide)
  exact ⟨by decide, by decide, h.2.2.2.2.1⟩

end R

namespace R

/-! ## Order of the bindings -/

/-- C23: for every binding table in which no binding's key sequence is a trailing
part of, or equal to, the key sequence of another binding, and for every pending
sequence and incoming key, the dispatch step gives the same result (the action
invoked, the key list handed to it, the pending sequence afterwards) for every order
in which the bindings are visited. -/
theorem dispatch_order_independent (m : mode) (order : List (key_list × CommandId))
    (hperm : order.Perm m.bindings)
    (hcond : m.bindings.Pairwise
      (fun p q => ¬ p.1.keys <:+ q.1.keys ∧ ¬ q.1.keys <:+ p.1.keys))
    (keys_entered : key_list) (ev : key) :
    dispatch { m with bindings := order } keys_entered ev = dispatch m keys_entered ev := by
  have hmem : ∀ p, p ∈ order ↔ p ∈ m.bindings := fun p => hperm.mem_iff
  unfold dispatch
  simp only []
  by_cases hex : ∃ p ∈ m.bindings, p.1.keys ≠ [] ∧ p.1.keys <:+ (keys_entered.add_key ev).keys
  · obtain ⟨p, hp, _, hps, hres⟩ :=
      dispatch.loop_match (keys_entered.add_key ev) m.bindings [] hex
    have hex' : ∃ p ∈ order, p.1.keys ≠ [] ∧ p.1.keys <:+ (keys_entered.add_key ev).keys := by
      obtain ⟨q, hq, h1, h2⟩ := hex
      exact ⟨q, (hmem q).mpr hq, h1, h2⟩
    obtain ⟨p', hp', _, hps', hres'⟩ :=
      dispatch.loop_match (keys_entered.add_key ev) order [] hex'
    have heq : p' = p := by
      by_contra hne
      have hsym : Symmetric
          (fun p q : key_list × CommandId =>
            ¬ p.1.keys <:+ q.1.keys ∧ ¬ q.1.keys <:+ p.1.keys) :=
        fun _ _ h => ⟨h.2, h.1⟩
      have hR := hcond.forall hsym ((hmem p').mp hp') hp hne
      rcases List.suffix_or_suffix_of_suffix hps' hps with h | h
      · exact hR.1 h
      · exact hR.2 h
    rw [hres, hres', heq]
  · have hno : ∀ p ∈ m.bindings, p.1.keys ≠ [] →
        ¬ p.1.keys <:+ (keys_entered.add_key ev).keys :=
      fun p hp h1 h2 => hex ⟨p, hp, h1, h2⟩
    rw [dispatch.loop_no_match _ m.bindings [] hno,
      dispatch.loop_no_match _ order [] (fun p hp => hno p ((hmem p).mp hp))]

/-- Witness of C23: the built-in normal mode table has no binding whose key
sequence is a trailing part of another's; visited in reverse order, with `g` pending
and the key `g`, it invokes `move_top` with `"g g"` as in source order. -/
theorem dispatch_order_independent_witness :
    modes.normal = .ok { name := "normal", bindings := modes.normal_bindings } ∧
    modes.normal_bindings.Pairwise
      (fun p q => ¬ p.1.keys <:+ q.1.keys ∧ ¬ q.1.keys <:+ p.1.keys) ∧
    dispatch { name := "normal", bindings := modes.normal_bindings.reverse }
        ⟨[⟨0, KeyRune, 'g'⟩]⟩ ⟨0, KeyRune, 'g'⟩
      = dispatch { name := "normal", bindings := modes.normal_bindings }
        ⟨[⟨0, KeyRune, 'g'⟩]⟩ ⟨0, KeyRune, 'g'⟩ ∧
    dispatch { name := "normal", bindings := modes.normal_bindings }
        ⟨[⟨0, KeyRune, 'g'⟩]⟩ ⟨0, KeyRune, 'g'⟩
      = { keys_entered := ⟨[]⟩,
          invoked := [(move_top, ⟨[⟨0, KeyRune, 'g'⟩, ⟨0, KeyRune, 'g'⟩]⟩)] } :=
  ⟨by decide, by decide,
    dispatch_order_independent { name := "normal", bindings := modes.normal_bindings }
      modes.normal_bindings.reverse (List.reverse_perm _) (by decide) _ _,
    by decide⟩

end R

namespace R

/-! ## Valid cursors and termination of the word movements -/

theorem index_getElem {α : Type} (s : List α) (i : Int) (a : α) (h : index s i = .ok a) :
    s[i.toNat]? = some a := by
  unfold index at h
  split at h
  · cases h
  · split at h
    · rename_i a' hget
      cases h
      exact hget
    · cases h

theorem buffer.cursor_valid_iff (b : buffer) :
    b.cursor_valid ↔ ∃ ln, index b.data b.cursor.line = .ok ln ∧
      0 ≤ b.cursor.char ∧ b.cursor.char ≤ (ln.length : Int) := by
  unfold buffer.cursor_valid
  constructor
  · rintro ⟨h0, h1, h2, h3⟩
    obtain ⟨ln, hidx, hget⟩ := index_ok b.data b.cursor.line h0 h1
    refine ⟨ln, hidx, h2, ?_⟩
    rw [List.getD_eq_getElem?_getD, hget] at h3
    exact h3
  · rintro ⟨ln, hidx, h2, h3⟩
    obtain ⟨h0, h1, _⟩ := index_mem b.data b.cursor.line ln hidx
    refine ⟨h0, h1, h2, ?_⟩
    rw [List.getD_eq_getElem?_getD, index_getElem _ _ _ hidx]
    exact h3

theorem buffer.char_under_cursor_ok (b : buffer) (ln : List Char)
    (hl : index b.data b.cursor.line = .ok ln) (h0 : 0 ≤ b.cursor.char) :
    ∃ c, b.char_under_cursor = .ok c := by
  unfold buffer.char_under_cursor
  simp only [hl]
  by_cases hlt : b.cursor.char < (ln.length : Int)
  · rw [if_pos hlt]
    obtain ⟨c, hc, _⟩ := index_ok ln b.cursor.char h0 hlt
    exact ⟨c, hc⟩
  · rw [if_neg hlt]
    exact ⟨'\n', rfl⟩

theorem buffer.move_word_forward.skip_word_ok (u : unicode) :
    ∀ (fuel : Nat) (b : buffer) (c : Char) (ln : List Char),
      index b.data b.cursor.line = .ok ln → 0 ≤ b.cursor.char →
      b.cursor.char ≤ (ln.length : Int) → b.char_under_cursor = .ok c →
      (ln.length : Int) < b.cursor.char + (fuel : Int) →
      ∃ b' c', buffer.move_word_forward.skip_word u fuel b c = .ok (b', c') ∧
        b'.data = b.data ∧ b'.cursor.line = b.cursor.line ∧
        b.cursor.char ≤ b'.cursor.char ∧ b'.cursor.char ≤ (ln.length : Int) ∧
        b'.char_under_cursor = .ok c' := by
  intro fuel
  induction fuel with
  | zero =>
    intro b c ln _ _ hle _ hf
    simp only [Nat.cast_zero, Int.add_zero] at hf
    omega
  | succ n ih =>
    intro b c ln hl h0 hle hc hf
    rw [buffer.move_word_forward.skip_word]
    by_cases hcond : (is_word u c && c != '\n') = true
    · rw [if_pos hcond]
      have hne : c ≠ '\n' := by
        simp only [Bool.and_eq_true, bne_iff_ne, ne_eq] at hcond
        exact hcond.2
      have hlt := buffer.char_under_cursor_lt b ln c hl hc hne
      obtain ⟨c1, hc1⟩ := buffer.char_under_cursor_ok
        { b with cursor := { b.cursor with char := b.cursor.char + 1 } } ln hl
        (by show 0 ≤ b.cursor.char + 1; omega)
      obtain ⟨b', c', hrun, h1, h2, h3, h4, h5⟩ := ih
        { b with cursor := { b.cursor with char := b.cursor.char + 1 } } c1 ln hl
        (by show 0 ≤ b.cursor.char + 1; omega)
        (by show b.cursor.char + 1 ≤ _; omega) hc1
        (by show _ < b.cursor.char + 1 + (n : Int); push_cast at hf; omega)
      refine ⟨b', c', ?_, h1, h2, ?_, h4, h5⟩
      · simp only [hc1]
        exact hrun
      · have : b.cursor.char + 1 ≤ b'.cursor.char := h3
        omega
    · rw [if_neg hcond]
      exact ⟨b, c, rfl, rfl, rfl, le_refl _, hle, hc⟩

theorem buffer.move_word_forward.skip_other_ok (u : unicode) :
    ∀ (fuel : Nat) (b : buffer) (c : Char) (ln : List Char),
      index b.data b.cursor.line = .ok ln → 0 ≤ b.cursor.char →
      b.cursor.char ≤ (ln.length : Int) → b.char_under_cursor = .ok c →
      (ln.length : Int) < b.cursor.char + (fuel : Int) →
      ∃ b' c', buffer.move_word_forward.skip_other u fuel b c = .ok (b', c') ∧
        b'.data = b.data ∧ b'.cursor.line = b.cursor.line ∧
        b.cursor.char ≤ b'.cursor.char ∧ b'.cursor.char ≤ (ln.length : Int) ∧
        b'.char_under_cursor = .ok c' := by
  intro fuel
  induction fuel with
  | zero =>
    intro b c ln _ _ hle _ hf
    simp only [Nat.cast_zero, Int.add_zero] at hf
    omega
  | succ n ih =>
    intro b c ln hl h0 hle hc hf
    rw [buffer.move_word_forward.skip_other]
    by_cases hcond : (!is_word u c && c != '\n') = true
    · rw [if_pos hcond]
      have hne : c ≠ '\n' := by
        simp only [Bool.and_eq_true, bne_iff_ne, ne_eq] at hcond
        exact hcond.2
      have hlt := buffer.char_under_cursor_lt b ln c hl hc hne
      obtain ⟨c1, hc1⟩ := buffer.char_under_cursor_ok
        { b with cursor := { b.cursor with char := b.cursor.char + 1 } } ln hl
        (by show 0 ≤ b.cursor.char + 1; omega)
      obtain ⟨b', c', hrun, h1, h2, h3, h4, h5⟩ := ih
        { b with cursor := { b.cursor with char := b.cursor.char + 1 } } c1 ln hl
        (by show 0 ≤ b.cursor.char + 1; omega)
        (by show b.cursor.char + 1 ≤ _; omega) hc1
        (by show _ < b.cursor.char + 1 + (n : Int); push_cast at hf; omega)
      refine ⟨b', c', ?_, h1, h2, ?_, h4, h5⟩
      · simp only [hc1]
        exact hrun
      · have : b.cursor.char + 1 ≤ b'.cursor.char := h3
        omega
    · rw [if_neg hcond]
      exact ⟨b, c, rfl, rfl, rfl, le_refl _, hle, hc⟩

theorem buffer.move_word_backward.skip_other_back (u : unicode) :
    ∀ (fuel : Nat) (b : buffer) (c : Char) (ln : List Char),
      index b.data b.cursor.line = .ok ln → 0 ≤ b.cursor.char →
      b.cursor.char ≤ (ln.length : Int) → b.char_under_cursor = .ok c →
      b.cursor.char < (fuel : Int) →
      ∃ b' c', buffer.move_word_backward.skip_other u fuel b c = .ok (b', c') ∧
        b'.data = b.data ∧ b'.cursor.line = b.cursor.line ∧
        0 ≤ b'.cursor.char ∧ b'.cursor.char ≤ b.cursor.char ∧
        b'.char_under_cursor = .ok c' := by
  intro fuel
  induction fuel with
  | zero =>
    intro b c ln _ h0 _ _ hf
    simp only [Nat.cast_zero] at hf
    omega
  | succ n ih =>
    intro b c ln hl h0 hle hc hf
    rw [buffer.move_word_backward.skip_other]
    by_cases hcond : (!is_word u c && b.cursor.char != 0) = true
    · rw [if_pos hcond]
      have hne : b.cursor.char ≠ 0 := by
        simp only [Bool.and_eq_true, bne_iff_ne, ne_eq] at hcond
        exact hcond.2
      obtain ⟨c1, hc1⟩ := buffer.char_under_cursor_ok
        { b with cursor := { b.cursor with char := b.cursor.char - 1 } } ln hl
        (by show 0 ≤ b.cursor.char - 1; omega)
      obtain ⟨b', c', hrun, h1, h2, h3, h4, h5⟩ := ih
        { b with cursor := { b.cursor with char := b.cursor.char - 1 } } c1 ln hl
        (by show 0 ≤ b.cursor.char - 1; omega)
        (by show b.cursor.char - 1 ≤ _; omega) hc1
        (by show b.cursor.char - 1 < (n : Int); push_cast at hf; omega)
      refine ⟨b', c', ?_, h1, h2, h3, ?_, h5⟩
      · simp only [hc1]
        exact hrun
      · have : b'.cursor.char ≤ b.cursor.char - 1 := h4
        omega
    · rw [if_neg hcond]
      exact ⟨b, c, rfl, rfl, rfl, h0, le_refl _, hc⟩

theorem buffer.move_word_backward.skip_word_back (u : unicode) :
    ∀ (fuel : Nat) (b : buffer) (c : Char) (ln : List Char),
      index b.data b.cursor.line = .ok ln → 0 ≤ b.cursor.char →
      b.cursor.char ≤ (ln.length : Int) → b.char_under_cursor = .ok c →
      b.cursor.char < (fuel : Int) →
      ∃ b' c', buffer.move_word_backward.skip_word u fuel b c = .ok (b', c') ∧
        b'.data = b.data ∧ b'.cursor.line = b.cursor.line ∧
        0 ≤ b'.cursor.char ∧ b'.cursor.char ≤ b.cursor.char ∧
        b'.char_under_cursor = .ok c' := by
  intro fuel
  induction fuel with
  | zero =>
    intro b c ln _ h0 _ _ hf
    simp only [Nat.cast_zero] at hf
    omega
  | succ n ih =>
    intro b c ln hl h0 hle hc hf
    rw [buffer.move_word_backward.skip_word]
    by_cases hcond : (is_word u c && b.cursor.char != 0) = true
    · rw [if_pos hcond]
      have hne : b.cursor.char ≠ 0 := by
        simp only [Bool.and_eq_true, bne_iff_ne, ne_eq] at hcond
        exact hcond.2
      obtain ⟨c1, hc1⟩ := buffer.char_under_cursor_ok
        { b with cursor := { b.cursor with char := b.cursor.char - 1 } } ln hl
        (by show 0 ≤ b.cursor.char - 1; omega)
      obtain ⟨b', c', hrun, h1, h2, h3, h4, h5⟩ := ih
        { b with cursor := { b.cursor with char := b.cursor.char - 1 } } c1 ln hl
        (by show 0 ≤ b.cursor.char - 1; omega)
        (by show b.cursor.char - 1 ≤ _; omega) hc1
        (by show b.cursor.char - 1 < (n : Int); push_cast at hf; omega)
      refine ⟨b', c', ?_, h1, h2, h3, ?_, h5⟩
      · simp only [hc1]
        exact hrun
      · have : b'.cursor.char ≤ b.cursor.char - 1 := h4
        omega
    · rw [if_neg hcond]
      exact ⟨b, c, rfl, rfl, rfl, h0, le_refl _, hc⟩

theorem buffer.move_word_forward.outer_succ (u : unicode) (fuel n : Nat) (b : buffer) :
    buffer.move_word_forward.outer u fuel (n + 1) b
      = match b.char_under_cursor with
        | .error e => .error e
        | .ok c =>
          if c == '\n' then
            if b.last_line then .ok (b, false)
            else .ok ({ b with cursor := { line := b.cursor.line + 1, char := 0 } }, true)
          else
            match buffer.move_word_forward.skip_word u fuel b c with
            | .error e => .error e
            | .ok (b, c) =>
              if c == '\n' then buffer.move_word_forward.outer u fuel n b
              else .ok (b, true) := by
  rw [buffer.move_word_forward.outer]

theorem buffer.move_word_forward.outer_newline (u : unicode) (fuel : Nat) (b : buffer)
    (ln : List Char) (hl : index b.data b.cursor.line = .ok ln) (h0 : 0 ≤ b.cursor.char)
    (hle : b.cursor.char ≤ (ln.length : Int)) (hc : b.char_under_cursor = .ok '\n') :
    ∃ b' r, (∀ n, buffer.move_word_forward.outer u fuel (n + 1) b = .ok (b', r)) ∧
      b'.data = b.data ∧ b'.cursor_valid ∧ b.cursor.line ≤ b'.cursor.line ∧
      b'.cursor.line ≤ b.cursor.line + 1 := by
  by_cases hlast : b.last_line = true
  · refine ⟨b, false, ?_, rfl, (buffer.cursor_valid_iff b).mpr ⟨ln, hl, h0, hle⟩,
      le_refl _, by omega⟩
    intro n
    rw [buffer.move_word_forward.outer_succ]
    simp only [hc, beq_self_eq_true, if_true, hlast]
  · obtain ⟨hi0, hi1, _⟩ := index_mem b.data b.cursor.line ln hl
    have hnl : b.cursor.line ≠ (b.data.length : Int) - 1 := by
      intro he
      apply hlast
      unfold buffer.last_line
      rw [he]
      exact beq_self_eq_true _
    obtain ⟨ln', hl', _⟩ := index_ok b.data (b.cursor.line + 1) (by omega) (by omega)
    refine ⟨{ b with cursor := { line := b.cursor.line + 1, char := 0 } }, true, ?_, rfl,
      (buffer.cursor_valid_iff _).mpr ⟨ln', hl', le_refl _, by
        show (0 : Int) ≤ (ln'.length : Int)
        omega⟩,
      by show b.cursor.line ≤ b.cursor.line + 1; omega, le_refl _⟩
    intro n
    rw [buffer.move_word_forward.outer_succ]
    simp only [hc, beq_self_eq_true, if_true, hlast, Bool.false_eq_true, if_false]

theorem buffer.move_word_forward.outer_ok (u : unicode) (fuel : Nat) (b : buffer)
    (hv : b.cursor_valid) (hfuel : ∀ l ∈ b.data, l.length < fuel) :
    ∃ b' r, (∀ n, 2 ≤ n → buffer.move_word_forward.outer u fuel n b = .ok (b', r)) ∧
      b'.data = b.data ∧ b'.cursor_valid ∧ b.cursor.line ≤ b'.cursor.line ∧
      b'.cursor.line ≤ b.cursor.line + 1 := by
  obtain ⟨ln, hl, h0, hle⟩ := (buffer.cursor_valid_iff b).mp hv
  obtain ⟨c, hc⟩ := buffer.char_under_cursor_ok b ln hl h0
  have hlen : ln.length < fuel := hfuel ln (index_mem _ _ _ hl).2.2
  by_cases hnl : c = '\n'
  · rw [hnl] at hc
    obtain ⟨b', r, hrun, h1, h2, h3, h4⟩ :=
      buffer.move_word_forward.outer_newline u fuel b ln hl h0 hle hc
    refine ⟨b', r, ?_, h1, h2, h3, h4⟩
    intro n hn
    obtain ⟨m, rfl⟩ : ∃ m, n = m + 1 := ⟨n - 1, by omega⟩
    exact hrun m
  · obtain ⟨b2, c2, hskip, s1, s2, s3, s4, s5⟩ :=
      buffer.move_word_forward.skip_word_ok u fuel b c ln hl h0 hle hc (by omega)
    have hbeq : (c == '\n') = false := by simpa using hnl
    by_cases hnl2 : c2 = '\n'
    · rw [hnl2] at s5 hskip
      obtain ⟨b', r, hrun, h1, h2, h3, h4⟩ :=
        buffer.move_word_forward.outer_newline u fuel b2 ln (by rw [s1, s2]; exact hl)
          (by omega) s4 s5
      refine ⟨b', r, ?_, h1.trans s1, h2, by omega, by omega⟩
      intro n hn
      obtain ⟨m, rfl⟩ : ∃ m, n = m + 1 + 1 := ⟨n - 2, by omega⟩
      rw [buffer.move_word_forward.outer_succ]
      simp only [hc, hbeq, Bool.false_eq_true, if_false, hskip, beq_self_eq_true, if_true]
      exact hrun m
    · have hbeq2 : (c2 == '\n') = false := by simpa using hnl2
      refine ⟨b2, true, ?_, s1,
        (buffer.cursor_valid_iff b2).mpr ⟨ln, by rw [s1, s2]; exact hl, by omega, s4⟩,
        by omega, by omega⟩
      intro n hn
      obtain ⟨m, rfl⟩ : ∃ m, n = m + 1 := ⟨n - 1, by omega⟩
      rw [buffer.move_word_forward.outer_succ]
      simp only [hc, hbeq, Bool.false_eq_true, if_false, hskip, hbeq2]

theorem buffer.move_word_backward.outer_succ_back (u : unicode) (fuel n : Nat) (b : buffer) :
    buffer.move_word_backward.outer u fuel (n + 1) b
      = match b.char_under_cursor with
        | .error e => .error e
        | .ok c =>
          if b.cursor.char == 0 then
            if b.first_line then .ok (b, false)
            else
              match index b.data (b.cursor.line - 1) with
              | .error e => .error e
              | .ok l =>
                buffer.move_word_backward.outer u fuel n
                  { b with cursor := { line := b.cursor.line - 1, char := l.length } }
          else
            match buffer.move_word_backward.skip_other u fuel b c with
            | .error e => .error e
            | .ok (b, _) =>
              if b.cursor.char == 0 then buffer.move_word_backward.outer u fuel n b
              else .ok (b, true) := by
  rw [buffer.move_word_backward.outer]

theorem buffer.move_word_backward.outer_ok_back (u : unicode) (fuel : Nat) :
    ∀ (k : Nat) (b : buffer), b.cursor_valid → (∀ l ∈ b.data, l.length < fuel) →
      2 * b.cursor.line.toNat + (if b.cursor.char = 0 then 1 else 2) ≤ k →
      ∃ b' r, (∀ n, k ≤ n → buffer.move_word_backward.outer u fuel n b = .ok (b', r)) ∧
        b'.data = b.data ∧ b'.cursor_valid ∧ b'.cursor.line ≤ b.cursor.line := by
  intro k
  induction k with
  | zero =>
    intro b _ _ hk
    split at hk <;> omega
  | succ k ih =>
    intro b hv hfuel hk
    obtain ⟨ln, hl, h0, hle⟩ := (buffer.cursor_valid_iff b).mp hv
    obtain ⟨hi0, hi1, hmem⟩ := index_mem b.data b.cursor.line ln hl
    obtain ⟨c, hc⟩ := buffer.char_under_cursor_ok b ln hl h0
    have hlen : ln.length < fuel := hfuel ln hmem
    by_cases hz : b.cursor.char = 0
    · have hbz : (b.cursor.char == 0) = true := by rw [hz]; rfl
      rw [if_pos hz] at hk
      by_cases hfirst : b.first_line = true
      · refine ⟨b, false, ?_, rfl, hv, le_refl _⟩
        intro n hn
        obtain ⟨m, rfl⟩ : ∃ m, n = m + 1 := ⟨n - 1, by omega⟩
        rw [buffer.move_word_backward.outer_succ_back]
        simp only [hc, hbz, if_true, hfirst]
      · have hne : b.cursor.line ≠ 0 := by
          intro he
          apply hfirst
          unfold buffer.first_line
          rw [he]
          rfl
        obtain ⟨l', hl', _⟩ := index_ok b.data (b.cursor.line - 1) (by omega) (by omega)
        have hv1 : buffer.cursor_valid
            { b with cursor := { line := b.cursor.line - 1, char := (l'.length : Int) } } :=
          (buffer.cursor_valid_iff _).mpr ⟨l', hl', by
            show (0 : Int) ≤ (l'.length : Int)
            omega, le_refl _⟩
        obtain ⟨b', r, hrun, h1, h2, h3⟩ := ih
          { b with cursor := { line := b.cursor.line - 1, char := (l'.length : Int) } }
          hv1 hfuel (by
            show 2 * (b.cursor.line - 1).toNat + (if (l'.length : Int) = 0 then 1 else 2) ≤ k
            split <;> omega)
        refine ⟨b', r, ?_, h1, h2, by
          have : b'.cursor.line ≤ b.cursor.line - 1 := h3
          omega⟩
        intro n hn
        obtain ⟨m, rfl⟩ : ∃ m, n = m + 1 := ⟨n - 1, by omega⟩
        rw [buffer.move_word_backward.outer_succ_back]
        simp only [hc, hbz, if_true, hfirst, Bool.false_eq_true, if_false, hl']
        exact hrun m (by omega)
    · have hbz : (b.cursor.char == 0) = false := by simpa using hz
      rw [if_neg hz] at hk
      obtain ⟨b2, c2, hskip, s1, s2, s3, s4, s5⟩ :=
        buffer.move_word_backward.skip_other_back u fuel b c ln hl h0 hle hc (by omega)
      have hv2 : b2.cursor_valid :=
        (buffer.cursor_valid_iff b2).mpr ⟨ln, by rw [s1, s2]; exact hl, s3, by omega⟩
      by_cases hz2 : b2.cursor.char = 0
      · have hbz2 : (b2.cursor.char == 0) = true := by rw [hz2]; rfl
        obtain ⟨b', r, hrun, h1, h2, h3⟩ := ih b2 hv2 (by rw [s1]; exact hfuel) (by
          rw [if_pos hz2, s2]
          omega)
        refine ⟨b', r, ?_, h1.trans s1, h2, by omega⟩
        intro n hn
        obtain ⟨m, rfl⟩ : ∃ m, n = m + 1 := ⟨n - 1, by omega⟩
        rw [buffer.move_word_backward.outer_succ_back]
        simp only [hc, hbz, Bool.false_eq_true, if_false, hskip, hbz2, if_true]
        exact hrun m (by omega)
      · have hbz2 : (b2.cursor.char == 0) = false := by simpa using hz2
        refine ⟨b2, true, ?_, s1, hv2, by omega⟩
        intro n hn
        obtain ⟨m, rfl⟩ : ∃ m, n = m + 1 := ⟨n - 1, by omega⟩
        rw [buffer.move_word_backward.outer_succ_back]
        simp only [hc, hbz, Bool.false_eq_true, if_false, hskip, hbz2]

theorem buffer.move_word_forward_ok (u : unicode) (fuel : Nat) (b : buffer)
    (hv : b.cursor_valid) (hen : b.enough fuel) :
    ∃ b' r, b.move_word_forward u fuel = .ok (b', r) ∧ b'.data = b.data ∧
      b'.cursor_valid ∧ b.cursor.line ≤ b'.cursor.line ∧
      b'.cursor.line ≤ b.cursor.line + 1 := by
  obtain ⟨h2, hfuel⟩ := hen
  have hpos : 0 < b.data.length := by
    have := hv.2.1
    have := hv.1
    omega
  obtain ⟨b1, r, hrun, d1, v1, l1, l2⟩ :=
    buffer.move_word_forward.outer_ok u fuel b hv hfuel
  have hout := hrun fuel (by omega)
  cases r with
  | false =>
    refine ⟨b1, false, ?_, d1, v1, l1, l2⟩
    unfold buffer.move_word_forward
    simp only [hout]
  | true =>
    obtain ⟨ln, hl, h0, hle⟩ := (buffer.cursor_valid_iff b1).mp v1
    obtain ⟨c, hc⟩ := buffer.char_under_cursor_ok b1 ln hl h0
    have hlen : ln.length < fuel :=
      hfuel ln (by rw [← d1]; exact (index_mem _ _ _ hl).2.2)
    obtain ⟨b2, c2, hskip, s1, s2, s3, s4, _⟩ :=
      buffer.move_word_forward.skip_other_ok u fuel b1 c ln hl h0 hle hc (by omega)
    refine ⟨b2, true, ?_, s1.trans d1,
      (buffer.cursor_valid_iff b2).mpr ⟨ln, by rw [s1, s2]; exact hl, by omega, s4⟩,
      by omega, by omega⟩
    unfold buffer.move_word_forward
    simp only [hout, hc, hskip]

theorem buffer.move_word_backward_ok (u : unicode) (fuel : Nat) (b : buffer)
    (hv : b.cursor_valid) (hen : b.enough fuel) :
    ∃ b' r, b.move_word_backward u fuel = .ok (b', r) ∧ b'.data = b.data ∧
      b'.cursor_valid ∧ b'.cursor.line ≤ b.cursor.line := by
  obtain ⟨h2, hfuel⟩ := hen
  have hk : 2 * b.cursor.line.toNat + (if b.cursor.char = 0 then 1 else 2) ≤ fuel := by
    have := hv.2.1
    have := hv.1
    split <;> omega
  obtain ⟨b1, r, hrun, d1, v1, l1⟩ :=
    buffer.move_word_backward.outer_ok_back u fuel fuel b hv hfuel hk
  have hout := hrun fuel (le_refl _)
  cases r with
  | false =>
    refine ⟨b1, false, ?_, d1, v1, l1⟩
    unfold buffer.move_word_backward
    simp only [hout]
  | true =>
    obtain ⟨ln, hl, h0, hle⟩ := (buffer.cursor_valid_iff b1).mp v1
    obtain ⟨c, hc⟩ := buffer.char_under_cursor_ok b1 ln hl h0
    have hlen : ln.length < fuel :=
      hfuel ln (by rw [← d1]; exact (index_mem _ _ _ hl).2.2)
    obtain ⟨b2, c2, hskip, s1, s2, s3, s4, _⟩ :=
      buffer.move_word_backward.skip_word_back u fuel b1 c ln hl h0 hle hc (by omega)
    refine ⟨b2, true, ?_, s1.trans d1,
      (buffer.cursor_valid_iff b2).mpr ⟨ln, by rw [s1, s2]; exact hl, s3, by omega⟩,
      by omega⟩
    unfold buffer.move_word_backward
    simp only [hout, hc, hskip]

theorem buffer.move_to_valid (b : buffer) (c l : Int) (hd : b.data ≠ []) :
    ∃ b', b.move_to c l = .ok b' ∧ b'.cursor_valid ∧ b'.data = b.data := by
  obtain ⟨b', line, hrun, hdata, hline, hget, hchar⟩ := buffer.move_to_ok b c l hd
  have hlen : 0 < b.data.length := List.length_pos.mpr hd
  refine ⟨b', hrun, ?_, hdata⟩
  unfold buffer.cursor_valid
  rw [hdata, List.getD_eq_getElem?_getD, hget, hline, hchar]
  refine ⟨by omega, by omega, by omega, ?_⟩
  show max 0 (min c (line.length : Int)) ≤ (line.length : Int)
  omega

/-- C25: for every buffer whose cursor satisfies `0 <= line < len(data)` and
`0 <= char <= len(data[line])` (so it has at least one line), `move_to` and `move`
with any arguments, and `move_word_forward` and `move_word_backward` with any
budget that is enough for the buffer, return without an out-of-range index, with a
cursor that satisfies the same bounds and with `data` unchanged. -/
theorem buffer.cursor_valid_invariant (u : unicode) (b : buffer) (hv : b.cursor_valid) :
    (∀ c l : Int, ∃ b', b.move_to c l = .ok b' ∧ b'.cursor_valid ∧ b'.data = b.data) ∧
    (∀ c l : Int, ∃ b', b.move c l = .ok b' ∧ b'.cursor_valid ∧ b'.data = b.data) ∧
    (∀ fuel : Nat, b.enough fuel →
      ∃ b' r, b.move_word_forward u fuel = .ok (b', r) ∧ b'.cursor_valid ∧
        b'.data = b.data) ∧
    (∀ fuel : Nat, b.enough fuel →
      ∃ b' r, b.move_word_backward u fuel = .ok (b', r) ∧ b'.cursor_valid ∧
        b'.data = b.data) := by
  have hd : b.data ≠ [] := by
    intro he
    have h1 := hv.2.1
    have h0 := hv.1
    rw [he] at h1
    simp only [List.length_nil, Nat.cast_zero] at h1
    omega
  refine ⟨fun c l => buffer.move_to_valid b c l hd,
    fun c l => buffer.move_to_valid b _ _ hd, ?_, ?_⟩
  · intro fuel hen
    obtain ⟨b', r, hrun, h1, h2, _⟩ := buffer.move_word_forward_ok u fuel b hv hen
    exact ⟨b', r, hrun, h2, h1⟩
  · intro fuel hen
    obtain ⟨b', r, hrun, h1, h2, _⟩ := buffer.move_word_backward_ok u fuel b hv hen
    exact ⟨b', r, hrun, h2, h1⟩

/-- Witness of C25: the lines `"hello world"` and `"foo"` with the cursor on line 0,
column 3, and the budget 12. -/
theorem buffer.cursor_valid_invariant_witness :
    buffer.cursor_valid ⟨["hello world".toList, "foo".toList], ⟨0, 3⟩⟩ ∧
    buffer.enough ⟨["hello world".toList, "foo".toList], ⟨0, 3⟩⟩ 12 ∧
    (∃ b' r, buffer.move_word_forward unicode.ascii 12
        ⟨["hello world".toList, "foo".toList], ⟨0, 3⟩⟩ = .ok (b', r) ∧ b'.cursor_valid ∧
      b'.data = ["hello world".toList, "foo".toList]) ∧
    (∃ b' r, buffer.move_word_backward unicode.ascii 12
        ⟨["hello world".toList, "foo".toList], ⟨0, 3⟩⟩ = .ok (b', r) ∧ b'.cursor_valid ∧
      b'.data = ["hello world".toList, "foo".toList]) :=
  ⟨by decide, by decide,
    (buffer.cursor_valid_invariant unicode.ascii
      ⟨["hello world".toList, "foo".toList], ⟨0, 3⟩⟩ (by decide)).2.2.1 12 (by decide),
    (buffer.cursor_valid_invariant unicode.ascii
      ⟨["hello world".toList, "foo".toList], ⟨0, 3⟩⟩ (by decide)).2.2.2 12 (by decide)⟩

/-- C26: for every buffer and valid cursor, with a budget for the inner loops that
exceeds the length of every line: the outer loop of `move_word_forward` ends within
two iterations, with the same result for every budget of at least two, and leaves
the cursor on its line or the next one; the outer loop of `move_word_backward` ends
within `2*(line+1)` iterations, with the same result for every budget of at least
that, and never moves the cursor down; and both functions return when the budget is
enough for the buffer. -/
theorem buffer.move_word_terminates (u : unicode) (b : buffer) (hv : b.cursor_valid)
    (fuel : Nat) (hfuel : ∀ ln ∈ b.data, ln.length < fuel) :
    (∃ b' r,
      (∀ n, 2 ≤ n → buffer.move_word_forward.outer u fuel n b = .ok (b', r)) ∧
      b.cursor.line ≤ b'.cursor.line ∧ b'.cursor.line ≤ b.cursor.line + 1) ∧
    (∃ b' r,
      (∀ n, 2 * (b.cursor.line.toNat + 1) ≤ n →
        buffer.move_word_backward.outer u fuel n b = .ok (b', r)) ∧
      b'.cursor.line ≤ b.cursor.line) ∧
    (2 * b.data.length ≤ fuel →
      (∃ res, b.move_word_forward u fuel = .ok res) ∧
      (∃ res, b.move_word_backward u fuel = .ok res)) := by
  refine ⟨?_, ?_, ?_⟩
  · obtain ⟨b', r, hrun, _, _, h1, h2⟩ :=
      buffer.move_word_forward.outer_ok u fuel b hv hfuel
    exact ⟨b', r, hrun, h1, h2⟩
  · obtain ⟨b', r, hrun, _, _, h1⟩ :=
      buffer.move_word_backward.outer_ok_back u fuel (2 * (b.cursor.line.toNat + 1)) b hv hfuel
        (by split <;> omega)
    exact ⟨b', r, hrun, h1⟩
  · intro h2
    obtain ⟨b1, r1, hf, _⟩ := buffer.move_word_forward_ok u fuel b hv ⟨h2, hfuel⟩
    obtain ⟨b2, r2, hb, _⟩ := buffer.move_word_backward_ok u fuel b hv ⟨h2, hfuel⟩
    exact ⟨⟨_, hf⟩, ⟨_, hb⟩⟩

/-- Witness of C26: the lines `"ab cd"`, `""` and two spaces, the cursor at the end
of the last line (line 2, column 2), inner budget 6: the forward loop ends within
two iterations, the backward loop within six, and both functions return. -/
theorem buffer.move_word_terminates_witness :
    (∃ b' r,
      (∀ n, 2 ≤ n →
        buffer.move_word_forward.outer unicode.ascii 6 n
          ⟨["ab cd".toList, [], "  ".toList], ⟨2, 2⟩⟩ = .ok (b', r)) ∧
      (2 : Int) ≤ b'.cursor.line ∧ b'.cursor.line ≤ 2 + 1) ∧
    (∃ b' r,
      (∀ n, 2 * ((2 : Int).toNat + 1) ≤ n →
        buffer.move_word_backward.outer unicode.ascii 6 n
          ⟨["ab cd".toList, [], "  ".toList], ⟨2, 2⟩⟩ = .ok (b', r)) ∧
      b'.cursor.line ≤ 2) ∧
    buffer.move_word_backward unicode.ascii 6 ⟨["ab cd".toList, [], "  ".toList], ⟨2, 2⟩⟩
      = .ok (⟨["ab cd".toList, [], "  ".toList], ⟨0, 2⟩⟩, true) := by
  have h := buffer.move_word_terminates unicode.ascii
    ⟨["ab cd".toList, [], "  ".toList], ⟨2, 2⟩⟩ (by decide) 6 (by decide)
  exact ⟨h.1, h.2.1, by decide⟩

end R
